import Mathlib

/-!
Verification development for the RecurrenceRelationSolver repository
(`RecurrenceRelationSolver/RecurrenceRelation.py` and the surrounding driver,
parser and tests).

The solver manipulates sympy expressions built from the integer symbol `n`,
the undefined function `s` applied at shifted arguments `s(n - j)`, rational
constants, further symbols (`r`, `p_i_j`, `q_i_j`), and sums, products and
powers.  `SymExpr` is a shallow embedding of exactly that expression
language: n-ary `add`/`mul` mirror sympy's flattened `Add`/`Mul` nodes (the
Python code iterates over `.args` of those nodes), `scall j` mirrors the
applied function `s(n - j)` (`j = 0` is `s(n)` itself, and negative `j`
would be `s(n + |j|)`), and `pow` mirrors a binary `Pow` node.  Rational
literals cover every numeric atom of the solver's supported input class.

The recurrence expression handed to the analyzer is sympy's parsed and
`expand()`ed form; theorems below that depend on that normal form state it
as an explicit well-formedness hypothesis on the term list.
-/

inductive SymExpr : Type where
  | num : ℚ → SymExpr
  | varN : SymExpr
  | sym : String → SymExpr
  | scall : ℤ → SymExpr
  | add : List SymExpr → SymExpr
  | mul : List SymExpr → SymExpr
  | pow : SymExpr → SymExpr → SymExpr
  deriving Repr

namespace SymExpr

/-- Induction principle for `SymExpr` together with a motive for the nested
argument lists, applied positionally to the auto-generated recursor. -/
theorem indPair {P : SymExpr → Prop} {PL : List SymExpr → Prop}
    (hnum : ∀ q, P (num q)) (hvarN : P varN) (hsym : ∀ s, P (sym s))
    (hscall : ∀ j, P (scall j))
    (hadd : ∀ l, PL l → P (add l)) (hmul : ∀ l, PL l → P (mul l))
    (hpow : ∀ b e, P b → P e → P (pow b e))
    (hnil : PL []) (hcons : ∀ x xs, P x → PL xs → PL (x :: xs)) :
    ∀ a, P a :=
  @SymExpr.rec P PL hnum hvarN hsym hscall hadd hmul hpow hnil hcons

mutual

/-- Boolean equality on `SymExpr`, mirroring sympy's structural equality. -/
def beq : SymExpr → SymExpr → Bool
  | num a, num b => a == b
  | varN, varN => true
  | sym a, sym b => a == b
  | scall a, scall b => a == b
  | add a, add b => beqList a b
  | mul a, mul b => beqList a b
  | pow a b, pow c d => beq a c && beq b d
  | _, _ => false

/-- Pointwise `beq` on argument lists. -/
def beqList : List SymExpr → List SymExpr → Bool
  | [], [] => true
  | x :: xs, y :: ys => beq x y && beqList xs ys
  | _, _ => false

end

theorem beq_iff : ∀ a b : SymExpr, beq a b = true ↔ a = b := by
  have main : ∀ a : SymExpr, ∀ b, beq a b = true ↔ a = b := by
    refine @indPair (fun a => ∀ b, beq a b = true ↔ a = b)
      (fun l => ∀ m, beqList l m = true ↔ l = m) ?_ ?_ ?_ ?_ ?_ ?_ ?_ ?_ ?_
    · intro q b; cases b <;> simp [beq]
    · intro b; cases b <;> simp [beq]
    · intro s b; cases b <;> simp [beq]
    · intro j b; cases b <;> simp [beq]
    · intro l ih b; cases b <;> simp [beq, ih]
    · intro l ih b; cases b <;> simp [beq, ih]
    · intro x y ihx ihy b; cases b <;> simp [beq, ihx, ihy]
    · intro m; cases m <;> simp [beqList]
    · intro x xs ihx ihxs m; cases m <;> simp [beqList, ihx, ihxs]
  exact main

instance : DecidableEq SymExpr := fun a b => decidable_of_iff (beq a b = true) (beq_iff a b)

mutual

/-- Models sympy `expr.has(s)` for the distinguished recurrence function `s`:
true iff some applied occurrence `s(n - j)` appears in the expression. -/
def hasS : SymExpr → Bool
  | num _ => false
  | varN => false
  | sym _ => false
  | scall _ => true
  | add l => hasSList l
  | mul l => hasSList l
  | pow b e => hasS b || hasS e

/-- `hasS` over an argument list. -/
def hasSList : List SymExpr → Bool
  | [] => false
  | x :: xs => hasS x || hasSList xs

end

mutual

/-- Models `n ∈ expr.atoms()` / `expr.has(n)` for the domain symbol `n`.
An applied call `s(n - j)` contains the symbol `n` in its argument. -/
def hasN : SymExpr → Bool
  | num _ => false
  | varN => true
  | sym _ => false
  | scall _ => true
  | add l => hasNList l
  | mul l => hasNList l
  | pow b e => hasN b || hasN e

/-- `hasN` over an argument list. -/
def hasNList : List SymExpr → Bool
  | [] => false
  | x :: xs => hasN x || hasNList xs

end

mutual

/-- Models sympy `expr.has(sympy.Pow)`: true iff a `Pow` node occurs anywhere
in the expression tree.  The argument `n - j` of an applied `s` is an `Add`
of an integer and `n`, so it never contains a `Pow` node. -/
def hasPowNode : SymExpr → Bool
  | num _ => false
  | varN => false
  | sym _ => false
  | scall _ => false
  | add l => hasPowNodeList l
  | mul l => hasPowNodeList l
  | pow _ _ => true

/-- `hasPowNode` over an argument list. -/
def hasPowNodeList : List SymExpr → Bool
  | [] => false
  | x :: xs => hasPowNode x || hasPowNodeList xs

end

mutual

/-- All applied occurrences of `s`, as the list of their offsets `j` in
`s(n - j)`, in preorder.  Models the match set `arg.find(s(n - i))` with
`i` a sympy `Wild` (every applied `s` matches that pattern; the Python set
has no specified order, our list fixes the preorder traversal). -/
def findSCalls : SymExpr → List ℤ
  | num _ => []
  | varN => []
  | sym _ => []
  | scall j => [j]
  | add l => findSCallsList l
  | mul l => findSCallsList l
  | pow b e => findSCalls b ++ findSCalls e

/-- `findSCalls` over an argument list. -/
def findSCallsList : List SymExpr → List ℤ
  | [] => []
  | x :: xs => findSCalls x ++ findSCallsList xs

end

/-- True for the expressions sympy classifies as `Symbol` atoms: the domain
symbol `n` and every named symbol (`r`, `p_i_j`, `q_i_j`, …). -/
def isSymbolAtom : SymExpr → Bool
  | varN => true
  | sym _ => true
  | _ => false

mutual

/-- Models `expr.atoms(sympy.Symbol)`: the `Symbol` atoms occurring in the
expression.  Python returns a set with unspecified iteration order; we
return the preorder list, possibly with duplicates — every use below is
insensitive to order and multiplicity.  The argument of `s(n - j)`
contains the symbol `n`. -/
def atomsSyms : SymExpr → List SymExpr
  | num _ => []
  | varN => [varN]
  | sym s => [sym s]
  | scall _ => [varN]
  | add l => atomsSymsList l
  | mul l => atomsSymsList l
  | pow b e => atomsSyms b ++ atomsSyms e

/-- `atomsSyms` over an argument list. -/
def atomsSymsList : List SymExpr → List SymExpr
  | [] => []
  | x :: xs => atomsSyms x ++ atomsSymsList xs

end

end SymExpr

/-!
Python-dictionary association lists.  The solver uses Python `dict`s keyed
by sympy objects; `dlookup`/`dinsert` model lookup and
insert-or-update with Python's semantics: an update keeps the key's original
insertion position, a fresh key is appended at the end.
-/

section PyDict

variable {κ : Type} {ν : Type} [DecidableEq κ]

/-- Python `d[k]` / `d.get(k)`: the value stored at `k`, if any. -/
def dlookup (k : κ) : List (κ × ν) → Option ν
  | [] => none
  | kv :: rest => if kv.1 = k then some kv.2 else dlookup k rest

/-- Python `d[k] = v`: update in place, or append a fresh key at the end. -/
def dinsert (k : κ) (v : ν) : List (κ × ν) → List (κ × ν)
  | [] => [(k, v)]
  | kv :: rest => if kv.1 = k then (kv.1, v) :: rest else kv :: dinsert k v rest

/-- The keys of a dictionary, in insertion order. -/
def dkeys (d : List (κ × ν)) : List κ := d.map Prod.fst

/-- Python `d.update(upd)`: write every entry of `upd` into `d`, in order. -/
def dictUpdate (d upd : List (κ × ν)) : List (κ × ν) :=
  upd.foldl (fun acc kv => dinsert kv.1 kv.2 acc) d

theorem dlookup_dinsert_self (k : κ) (v : ν) :
    ∀ d : List (κ × ν), dlookup k (dinsert k v d) = some v := by
  intro d
  induction d with
  | nil => simp [dinsert, dlookup]
  | cons kv rest ih =>
      by_cases h : kv.1 = k
      · simp [dinsert, dlookup, h]
      · simp [dinsert, dlookup, h, ih]

theorem dlookup_dinsert_ne (k k' : κ) (v : ν) (hne : k ≠ k') :
    ∀ d : List (κ × ν), dlookup k' (dinsert k v d) = dlookup k' d := by
  intro d
  induction d with
  | nil => simp [dinsert, dlookup, hne]
  | cons kv rest ih =>
      by_cases h : kv.1 = k
      · subst h; simp [dinsert, dlookup, hne]
      · simp [dinsert, dlookup, h, ih]

theorem mem_dkeys_dinsert (k k' : κ) (v : ν) (d : List (κ × ν)) :
    k' ∈ dkeys (dinsert k v d) ↔ k' = k ∨ k' ∈ dkeys d := by
  induction d with
  | nil => simp [dinsert, dkeys, eq_comm]
  | cons kv rest ih =>
      by_cases h : kv.1 = k
      · subst h
        simp [dinsert, dkeys, eq_comm]
      · simp [dinsert, dkeys, h] at ih ⊢
        tauto

theorem dlookup_isSome_iff_mem_dkeys (k : κ) :
    ∀ d : List (κ × ν), (dlookup k d).isSome ↔ k ∈ dkeys d := by
  intro d
  induction d with
  | nil => simp [dlookup, dkeys]
  | cons kv rest ih =>
      by_cases h : kv.1 = k
      · simp [dlookup, dkeys, h]
      · have h2 : ¬ k = kv.1 := fun hk => h hk.symm
        simp [dlookup, dkeys, h, h2, ih]

theorem dlookup_dictUpdate_not_mem (k : κ) (upd : List (κ × ν)) (hk : k ∉ dkeys upd) :
    ∀ d, dlookup k (dictUpdate d upd) = dlookup k d := by
  induction upd with
  | nil => intro d; simp [dictUpdate]
  | cons kv rest ih =>
      intro d
      have hstep : dictUpdate d (kv :: rest) = dictUpdate (dinsert kv.1 kv.2 d) rest := rfl
      have h1 : ¬ k = kv.1 := fun h => hk (by simp [dkeys, h])
      have h2 : k ∉ dkeys rest := fun h => hk (by simp [dkeys] at h ⊢; exact Or.inr h)
      rw [hstep, ih h2, dlookup_dinsert_ne _ _ _ (fun h => h1 h.symm)]

theorem dlookup_dictUpdate_of_dlookup (k : κ) (v : ν) (upd : List (κ × ν))
    (hnodup : (dkeys upd).Nodup) (hv : dlookup k upd = some v) :
    ∀ d, dlookup k (dictUpdate d upd) = some v := by
  induction upd with
  | nil => intro d; simp [dlookup] at hv
  | cons kv rest ih =>
      intro d
      have hstep : dictUpdate d (kv :: rest) = dictUpdate (dinsert kv.1 kv.2 d) rest := rfl
      simp [dkeys] at hnodup
      by_cases h : kv.1 = k
      · subst h
        simp [dlookup] at hv
        subst hv
        rw [hstep, dlookup_dictUpdate_not_mem _ _ (by simpa [dkeys] using hnodup.1),
          dlookup_dinsert_self]
      · simp [dlookup, h] at hv
        rw [hstep, ih (by simpa [dkeys] using hnodup.2) hv]

theorem mem_dkeys_dictUpdate (k : κ) (upd : List (κ × ν)) :
    ∀ d, k ∈ dkeys (dictUpdate d upd) ↔ k ∈ dkeys d ∨ k ∈ dkeys upd := by
  induction upd with
  | nil => intro d; simp [dictUpdate, dkeys]
  | cons kv rest ih =>
      intro d
      have hstep : dictUpdate d (kv :: rest) = dictUpdate (dinsert kv.1 kv.2 d) rest := rfl
      rw [hstep, ih, mem_dkeys_dinsert]
      simp [dkeys]
      tauto

theorem dlookup_map_value (k : κ) (f : ν → ν) :
    ∀ d : List (κ × ν),
      dlookup k (d.map fun kv => (kv.1, f kv.2)) = (dlookup k d).map f := by
  intro d
  induction d with
  | nil => simp [dlookup]
  | cons kv rest ih =>
      by_cases h : kv.1 = k
      · simp [dlookup, h]
      · simp [dlookup, h, ih]

end PyDict

namespace SymExpr

mutual

/-- Models `expr.subs(replaceDict)` where every key of the dictionary is a
sympy `Symbol`: each symbol atom present as a key is replaced by its value.
(The dictionaries the solver passes here never contain `s`-applications as
keys, and their values are substituted as-is, as sympy does.) -/
def subsSymbols (d : List (SymExpr × SymExpr)) : SymExpr → SymExpr
  | num q => num q
  | varN => (dlookup varN d).getD varN
  | sym s => (dlookup (sym s) d).getD (sym s)
  | scall j => scall j
  | add l => add (subsSymbolsList d l)
  | mul l => mul (subsSymbolsList d l)
  | pow b e => pow (subsSymbols d b) (subsSymbols d e)

/-- `subsSymbols` over an argument list. -/
def subsSymbolsList (d : List (SymExpr × SymExpr)) : List SymExpr → List SymExpr
  | [] => []
  | x :: xs => subsSymbols d x :: subsSymbolsList d xs

end

mutual

/-- Models `expr.subs(s(n - j), repl)`: replace every applied occurrence
`s(n - j)` with the given offset by the replacement expression. -/
def substSCall (j : ℤ) (repl : SymExpr) : SymExpr → SymExpr
  | num q => num q
  | varN => varN
  | sym s => sym s
  | scall i => if i = j then repl else scall i
  | add l => add (substSCallList j repl l)
  | mul l => mul (substSCallList j repl l)
  | pow b e => pow (substSCall j repl b) (substSCall j repl e)

/-- `substSCall` over an argument list. -/
def substSCallList (j : ℤ) (repl : SymExpr) : List SymExpr → List SymExpr
  | [] => []
  | x :: xs => substSCall j repl x :: substSCallList j repl xs

end

/-- Rational powers with a rational exponent: defined when the exponent is a
non-negative integer, and `0` (a junk value) otherwise.  The expressions the
theorems below evaluate only ever use non-negative integer exponents. -/
def qpow (b : ℚ) (e : ℚ) : ℚ :=
  if e.den = 1 ∧ 0 ≤ e.num then b ^ e.num.toNat else 0

mutual

/-- Evaluation of an `s`-free expression over ℚ: `σ` assigns values to the
named symbols and `nv` is the value of the integer symbol `n`.  An applied
`s` (never present in the expressions this is used on) evaluates to the junk
value `0`. -/
def evalQ (σ : String → ℚ) (nv : ℕ) : SymExpr → ℚ
  | num q => q
  | varN => (nv : ℚ)
  | sym s => σ s
  | scall _ => 0
  | add l => sumEvalQ σ nv l
  | mul l => prodEvalQ σ nv l
  | pow b e => qpow (evalQ σ nv b) (evalQ σ nv e)

/-- Sum of the evaluations of an argument list. -/
def sumEvalQ (σ : String → ℚ) (nv : ℕ) : List SymExpr → ℚ
  | [] => 0
  | x :: xs => evalQ σ nv x + sumEvalQ σ nv xs

/-- Product of the evaluations of an argument list. -/
def prodEvalQ (σ : String → ℚ) (nv : ℕ) : List SymExpr → ℚ
  | [] => 1
  | x :: xs => evalQ σ nv x * prodEvalQ σ nv xs

end

end SymExpr

namespace SymExpr

/-!
The analyzer (`RecurrenceRelation._analyseExpression`, lines 449-492).

The Python loop is `for arg in self._recurrence.args`, with the quirk that
when the top-level node has exactly one sympy argument the loop variable is
replaced by the whole expression.  sympy `.args` of an `Add`/`Mul` is the
operand list, of a `Pow` the pair `(base, exponent)`, of an applied `s` the
one-element tuple `(n - j,)`, and of an atom the empty tuple.
-/

/-- sympy `expr.args` for our expression language.  The single argument of
`s(n - j)` is the expression `n - j` (for `j = 0` just `n`). -/
def pyArgs : SymExpr → List SymExpr
  | num _ => []
  | varN => []
  | sym _ => []
  | scall j => if j = 0 then [varN] else [add [num (-(j : ℚ)), varN]]
  | add l => l
  | mul l => l
  | pow b e => [b, e]

/-- The terms the analyzer's loop actually iterates over: the sympy args of
the top-level node, except that a one-argument node is replaced by the whole
expression (lines 470-472).  Note that for a top-level `Mul` or `Pow` with
two or more args these are its factors, not its added terms. -/
def iterArgs (e : SymExpr) : List SymExpr :=
  let a := pyArgs e
  if a.length = 1 then [e] else a

/-- The first integer the regular expression `\d+` finds in the printed form
of `s(n - j)`: the absolute value of the offset; `s(n)` prints without any
digit, so the search fails (`AttributeError` on `.group()`). -/
def termDegreeDigits (j : ℤ) : Option ℕ :=
  if j = 0 then none else some j.natAbs

/-- Models lines 475-477: print the set of `s`-matches of the term and parse
the first digit run.  The Python set's iteration order is unspecified; we
take the preorder-first occurrence (the input classes considered below have
at most one occurrence per term, where the two notions agree). -/
def termDegree (t : SymExpr) : Option ℕ :=
  match findSCalls t with
  | [] => none
  | j :: _ => termDegreeDigits j

/-- Models lines 483-487: a term that is a `Mul` is flagged non-linear when
its first factor mentions `s` and its second factor mentions `s` or `n`.
(The source tests `s_args[0].has(s) or s_args[0].has(s)` — the duplicated
disjunct collapses — and only looks at the first two factors.) -/
def mulNonLinearCheck : SymExpr → Bool
  | mul (a :: b :: _) => hasS a && (hasS b || hasN b)
  | _ => false

/-- The result of `_analyseExpression`: the degree, the terms summed into
the homogeneous part, the terms summed into the non-homogeneous part, and
the linearity flag. -/
structure Analysis where
  degree : ℕ
  homogenous : List SymExpr
  nonHomogenous : List SymExpr
  linear : Bool
  deriving Repr, DecidableEq

/-- The analyzer's loop body over the iterated terms (lines 470-491): an
`s`-term is appended to the homogeneous part, its printed offset updates the
degree (a missing digit raises, modeled as `.error`), and the two
non-linearity checks `break` out of the loop with the flag cleared; all
other terms are appended to the non-homogeneous part. -/
def analyseLoop : List SymExpr → Analysis → Except String Analysis
  | [], acc => .ok acc
  | t :: rest, acc =>
    if hasS t then
      match termDegree t with
      | none => .error "Failed parsing homogeneous term"
      | some d =>
        if hasPowNode t then
          .ok ⟨if acc.degree < d then d else acc.degree,
            acc.homogenous ++ [t], acc.nonHomogenous, false⟩
        else if mulNonLinearCheck t then
          .ok ⟨if acc.degree < d then d else acc.degree,
            acc.homogenous ++ [t], acc.nonHomogenous, false⟩
        else
          analyseLoop rest ⟨if acc.degree < d then d else acc.degree,
            acc.homogenous ++ [t], acc.nonHomogenous, acc.linear⟩
    else analyseLoop rest ⟨acc.degree, acc.homogenous, acc.nonHomogenous ++ [t], acc.linear⟩

/-- `_analyseExpression` (lines 449-492). -/
def analyseExpression (recurrence : SymExpr) : Except String Analysis :=
  analyseLoop (iterArgs recurrence) ⟨0, [], [], true⟩

/-- The disjunction of the analyzer's two per-term non-linearity tests. -/
def codeNonLinearTerm (t : SymExpr) : Bool :=
  hasPowNode t || mulNonLinearCheck t

/-- The spec's top-level added terms of an equation: the operands of a
top-level `Add`, and the whole expression otherwise (spec §4.1: "a
recurrence whose top-level is a single `Mul` (not `Add`) is treated as a
one-term sum"). -/
def specTopTerms : SymExpr → List SymExpr
  | add l => l
  | e => [e]

/-- Whether a product's factor list has two distinct factors that violate
linearity per the spec: two factors both mentioning `s`, or one mentioning
`s` and another mentioning `n`. -/
def specMulPairViolation (l : List SymExpr) : Bool :=
  2 ≤ (l.filter hasS).length ||
    ((l.any hasS) && l.any fun g => hasN g && !hasS g)

mutual

/-- The spec's per-term non-linearity predicate (claim C7 wording): an
occurrence of `s(n - j)` under a power with exponent other than `1`, or a
product with two factors both mentioning `s`, or one mentioning `s` and
another mentioning `n`. -/
def specNonLinearTerm : SymExpr → Bool
  | num _ => false
  | varN => false
  | sym _ => false
  | scall _ => false
  | add l => specNonLinearTermList l
  | mul l => specMulPairViolation l || specNonLinearTermList l
  | pow b e => ((hasS b || hasS e) && !(beq e (num 1))) ||
      specNonLinearTerm b || specNonLinearTerm e

/-- `specNonLinearTerm` over an argument list. -/
def specNonLinearTermList : List SymExpr → Bool
  | [] => false
  | x :: xs => specNonLinearTerm x || specNonLinearTermList xs

end

/-- The spec-side non-linearity of a whole equation: some top-level added
term is non-linear. -/
def specNonLinearEquation (e : SymExpr) : Bool :=
  (specTopTerms e).any specNonLinearTerm

/-- The linearity gate of `_solve` (lines 548-556): run the analyzer, then
fail with the non-linearity error when the flag is cleared; the rest of
`_solve` is abstracted as the continuation `cont`. -/
def solveCheckLinear {α : Type} (recurrence : SymExpr)
    (cont : Analysis → Except String α) : Except String α :=
  match analyseExpression recurrence with
  | .error m => .error m
  | .ok a => if a.linear = false then .error "The equation is not linear" else cont a

/-- The maximum offset over all occurrences `s(n - j)` in a list of terms,
as a natural number (spec-side notion used by claim C6). -/
def maxOffset (ts : List SymExpr) : ℕ :=
  (findSCallsList ts).foldl (fun m j => Nat.max m j.toNat) 0

end SymExpr

namespace SymExpr

/-!
The characteristic-equation builder (`_getDirectKey`, `_dictBuilder`,
`_getCharacteristicEquation`, lines 494-536).
-/

/-- `_getDirectKey` (lines 494-500): for an applied `s(n - j)` the first
argument of its argument, i.e. `-j` (sympy orders the `Add` `n - j` with the
constant first); for any other node, the same on `args[1]` when that factor
is an applied `s`; `None` otherwise.  For `s(n)` the source raises an
`IndexError` (`n` has no args); that input never reaches this code in a run
that gets past the analyzer, and is excluded by the well-formedness
hypotheses below, so we return `none` for it as well. -/
def getDirectKey : SymExpr → Option ℤ
  | scall j => if j = 0 then none else some (-j)
  | mul (_ :: b :: _) =>
      match b with
      | scall j => if j = 0 then none else some (-j)
      | _ => none
  | _ => none

mutual

/-- `_dictBuilder` (lines 503-516): walk the recurrence; below an `Add`
recurse into the operands; a `Mul` stores its first factor under its direct
key; a bare applied `s` stores the constant `1` under its direct key. -/
def dictBuilder : SymExpr → List (Option ℤ × SymExpr) → List (Option ℤ × SymExpr)
  | add l, d => dictBuilderList l d
  | mul l, d =>
      match l with
      | c :: rest => dinsert (getDirectKey (mul (c :: rest))) c d
      | [] => d
  | scall j, d => dinsert (getDirectKey (scall j)) (num 1) d
  | _, d => d

/-- `_dictBuilder` over the operand list of an `Add`, left to right. -/
def dictBuilderList : List SymExpr → List (Option ℤ × SymExpr) → List (Option ℤ × SymExpr)
  | [], d => d
  | t :: ts, d => dictBuilderList ts (dictBuilder t d)

end

/-- `_getCharacteristicEquation` (lines 518-536): build the coefficient
dictionary from the stored recurrence, then form
`r**degree - Σ_{i=1..degree} dicts.get(-i, 0) * r**(degree - i)` as a sympy
expression in the symbol `r`.  Subtraction is sympy's
`Add(acc, Mul(-1, …))`. -/
def getCharacteristicEquation (recurrence : SymExpr) (degree : ℕ) : SymExpr :=
  let dicts := dictBuilder recurrence []
  (List.range degree).foldl
    (fun acc i =>
      add [acc,
        mul [num (-1), (dlookup (some (-(i + 1 : ℕ) : ℤ)) dicts).getD (num 0),
          pow (sym "r") (num ((degree - (i + 1) : ℕ) : ℚ))]])
    (pow (sym "r") (num (degree : ℚ)))

/-- The spec-side coefficient of `s(n - j)` in a single expanded term:
`1` for a bare `s(n - j)`, `c` for `c * s(n - j)`, nothing otherwise. -/
def termCoeff (j : ℤ) : SymExpr → Option ℚ
  | scall i => if i = j then some 1 else none
  | mul [num c, scall i] => if i = j then some c else none
  | _ => none

/-- The spec-side homogeneous coefficient `c_j` of a term list: the
coefficient of the (unique) term calling `s(n - j)`, defaulting to `0` when
no term does (claim C5: "any coefficient absent from the dictionary is
treated as 0"). -/
def specCoeff (ts : List SymExpr) (j : ℤ) : ℚ :=
  (ts.findSome? (termCoeff j)).getD 0

/-- The offset of one expanded homogeneous term: `j` for `s(n - j)` or a
rational multiple of it. -/
def termOffsetOf : SymExpr → Option ℤ
  | scall i => some i
  | mul [num _, scall i] => some i
  | _ => none

/-- The offsets of the homogeneous terms of an expanded term list, in
order. -/
def specOffsets (ts : List SymExpr) : List ℤ :=
  ts.filterMap termOffsetOf

/-- A term of the expanded recurrence is supported by the
characteristic-equation builder when it is a bare `s(n - j)` or a rational
multiple of one (with `j ≥ 1`), or is completely `s`-free. -/
def charEqSupportedTerm (t : SymExpr) : Prop :=
  (∃ j : ℤ, 1 ≤ j ∧ (t = scall j ∨ ∃ c : ℚ, t = mul [num c, scall j])) ∨ hasS t = false

/-!
The root stage of `_solve` (lines 561-570): sympy computes the roots of the
characteristic equation, the solver discards the complex ones, and fails
unless the real multiplicities sum to the degree.  The roots list is the
data returned by that external computation; theorems relate it to the
mathematical roots of the characteristic polynomial.
-/

end SymExpr

/-- The sum of the multiplicities of a root list. -/
def sumMultiplicities {K : Type} (rs : List (K × ℕ)) : ℕ :=
  (rs.map Prod.snd).sum

/-- A root list as a multiset with multiplicity. -/
def rootsMultiset {K : Type} (rs : List (K × ℕ)) : Multiset K :=
  (rs.map fun p => Multiset.replicate p.2 p.1).sum

/-- Lines 566-570 of `_solve`: fail unless the multiplicities of the
(real-filtered) roots sum to the degree; the rest of the pipeline is the
continuation `cont`.  The source interpolates the characteristic equation
and the roots into the message; the static text models it. -/
def solveRootsStage {K α : Type} (degree : ℕ) (rs : List (K × ℕ))
    (cont : List (K × ℕ) → Except String α) : Except String α :=
  if sumMultiplicities rs ≠ degree then
    .error "The characteristic equation has real roots whose multiplicities sum differs from the degree"
  else cont rs

theorem card_rootsMultiset {K : Type} (rs : List (K × ℕ)) :
    Multiset.card (rootsMultiset rs) = sumMultiplicities rs := by
  induction rs with
  | nil => simp [rootsMultiset, sumMultiplicities]
  | cons p rest ih =>
      simp [rootsMultiset, sumMultiplicities] at ih ⊢
      exact ih

namespace SymExpr

/-!
The Theorem-6 particular-solution template
(`_theorem6Classifier` lines 214-251, `_theorem6SolutionBuilder` lines
253-293).
-/

/-- The decomposition state of one forcing term: the exponential factor's
base (`power`), the rational coefficient (`constant`) and the polynomial
degree in `n` (`poly`), initialised to `1`, `1`, `0` (lines 234-236). -/
structure Classified where
  power : SymExpr
  constant : SymExpr
  poly : SymExpr
  deriving Repr, DecidableEq

/-- One step of `_theorem6Classifier`'s factor loop (lines 238-246): a
factor without `n` becomes the constant; a bare `Symbol` sets degree `1`; a
`Pow` with `Symbol` base sets the degree to its exponent; a `Pow` with
`Symbol` exponent sets the base. -/
def theorem6ClassifierStep (st : Classified) (a : SymExpr) : Classified :=
  if hasN a = false then { st with constant := a }
  else if isSymbolAtom a then { st with poly := num 1 }
  else
    match a with
    | pow b e =>
        if isSymbolAtom b then { st with poly := e }
        else if isSymbolAtom e then { st with power := b }
        else st
    | _ => st

/-- The factor list `_theorem6Classifier` iterates over: the args of a
`Mul`, and the one-element list of the term itself otherwise (lines
229-232). -/
def classifierArgs : SymExpr → List SymExpr
  | mul l => l
  | e => [e]

/-- The final decomposition of one forcing term. -/
def theorem6ClassifierState (t : SymExpr) : Classified :=
  (classifierArgs t).foldl theorem6ClassifierStep ⟨num 1, num 1, num 0⟩

/-- Lines 248-251: file the decomposed term into the nested bucket
dictionary `power ↦ (poly ↦ constant)`. -/
def bucketsAdd (power poly constant : SymExpr)
    (buckets : List (SymExpr × List (SymExpr × SymExpr))) :
    List (SymExpr × List (SymExpr × SymExpr)) :=
  dinsert power (dinsert poly constant ((dlookup power buckets).getD [])) buckets

/-- `_theorem6Classifier` (lines 214-251). -/
def theorem6Classifier (t : SymExpr)
    (buckets : List (SymExpr × List (SymExpr × SymExpr))) :
    List (SymExpr × List (SymExpr × SymExpr)) :=
  let st := theorem6ClassifierState t
  bucketsAdd st.power st.poly st.constant buckets

/-- The integer value of a polynomial-degree bucket key (the keys the
classifier produces for the supported forcing class are non-negative
integer literals). -/
def natDegreeOf : SymExpr → ℕ
  | num q => q.num.toNat
  | _ => 0

/-- `max(k for k, v in polys.items())` (line 279), over the degree keys of
one bucket.  The bucket always holds at least one key, so folding from `0`
computes the same maximum. -/
def maxPolyKey (polys : List (SymExpr × SymExpr)) : ℕ :=
  (dkeys polys).foldl (fun m k => Nat.max m (natDegreeOf k)) 0

/-- The undetermined-coefficient terms `q_i_j * n**j` for `j` descending
from the highest observed degree to `0` (lines 281-284). -/
def qPolyTerms (i : ℕ) (highest : ℕ) : List SymExpr :=
  ((List.range (highest + 1)).reverse).map fun j =>
    mul [sym ("q_" ++ toString i ++ "_" ++ toString j), pow varN (num (j : ℚ))]

/-- `_theorem6SolutionBuilder` (lines 253-293): classify every expanded
forcing term into buckets, then emit
`n**multiplicity * (q-polynomial) * power**n` per bucket, where
`multiplicity = realroots.get(power, 0)` (line 278).  The input is the
already-expanded forcing expression (the source calls `.expand()` on entry;
well-formedness of the expanded term list is a hypothesis of the theorems
below). -/
def theorem6SolutionBuilder (realroots : List (SymExpr × ℕ))
    (nonHomogenous : SymExpr) : SymExpr :=
  let buckets :=
    match nonHomogenous with
    | add l => l.foldl (fun B t => theorem6Classifier t B) []
    | e => theorem6Classifier e []
  add (buckets.enum.map fun ib =>
    mul [pow varN (num (((dlookup ib.2.1 realroots).getD 0 : ℕ) : ℚ)),
      add (qPolyTerms ib.1 (maxPolyKey ib.2.2)),
      pow ib.2.1 varN])

/-- The supported shapes of one expanded forcing term, together with its
polynomial degree `d` and exponential base `b` (spec §4.5: a product of an
optional rational coefficient, an optional `n`-power, and an optional
exponential `b^n`; a missing exponential means `b = 1`).  Factor order
inside a product follows sympy's canonical form with the numeric
coefficient first; the classifier treats factors independently, so the
order carries no information. -/
inductive ForcingShape : SymExpr → ℕ → ℚ → Prop where
  | const (c : ℚ) : ForcingShape (num c) 0 1
  | nlin : ForcingShape varN 1 1
  | npow (d : ℕ) : ForcingShape (pow varN (num (d : ℚ))) d 1
  | expo (b : ℚ) : ForcingShape (pow (num b) varN) 0 b
  | cn (c : ℚ) : ForcingShape (mul [num c, varN]) 1 1
  | cnpow (c : ℚ) (d : ℕ) : ForcingShape (mul [num c, pow varN (num (d : ℚ))]) d 1
  | cexpo (c b : ℚ) : ForcingShape (mul [num c, pow (num b) varN]) 0 b
  | nexpo (b : ℚ) : ForcingShape (mul [varN, pow (num b) varN]) 1 b
  | npowexpo (d : ℕ) (b : ℚ) :
      ForcingShape (mul [pow varN (num (d : ℚ)), pow (num b) varN]) d b
  | cnexpo (c b : ℚ) : ForcingShape (mul [num c, varN, pow (num b) varN]) 1 b
  | cnpowexpo (c : ℚ) (d : ℕ) (b : ℚ) :
      ForcingShape (mul [num c, pow varN (num (d : ℚ)), pow (num b) varN]) d b

end SymExpr

/-- Deduplication keeping first occurrences, in order. -/
def firstOccur {α : Type} [DecidableEq α] (l : List α) : List α :=
  l.foldl (fun acc b => if b ∈ acc then acc else acc ++ [b]) []

namespace SymExpr

/-- The spec-side group bases of a classified forcing-term list: the
distinct exponential bases, in order of first occurrence. -/
def specBasesE (cls : List (ℕ × ℚ)) : List SymExpr :=
  firstOccur (cls.map fun db => num db.2)

/-- The spec-side maximum polynomial degree observed within the group of a
given base. -/
def specMaxDeg (cls : List (ℕ × ℚ)) (p : SymExpr) : ℕ :=
  ((cls.filter fun db => decide (num db.2 = p)).map Prod.fst).foldl Nat.max 0

/-- The spec-side multiplicity `μ` of a base among the characteristic
roots: its stored multiplicity, and `0` when it is not a root. -/
def specMultiplicityE (rr : List (SymExpr × ℕ)) (p : SymExpr) : ℕ :=
  (dlookup p rr).getD 0

/-!
Free-variable elimination (`_set_free_variables_to_zero`, lines 120-137).
-/

/-- The first dictionary comprehension of `_set_free_variables_to_zero`
(line 131): for every `Symbol` atom `a` of any solution value, map `a` to
`solution[a]` when `a` is a key of the solution and to `a` itself
otherwise. -/
def buildNewSolution (solution : List (SymExpr × SymExpr)) : List (SymExpr × SymExpr) :=
  solution.foldl
    (fun acc kv =>
      (atomsSyms kv.2).foldl
        (fun acc2 a => dinsert a ((dlookup a solution).getD a) acc2) acc)
    []

/-- `_set_free_variables_to_zero` (lines 120-137): extend the solution with
the symbols appearing in its values, overwrite with the original solution,
collect every symbol mapped to itself into a replacement dictionary sending
it to `0`, and substitute that dictionary into every value. -/
def setFreeVariablesToZero (solution : List (SymExpr × SymExpr)) : List (SymExpr × SymExpr) :=
  let newSolution := dictUpdate (buildNewSolution solution) solution
  let replaceDict :=
    (newSolution.filter fun kv => decide (kv.1 = kv.2)).map fun kv => (kv.1, num 0)
  newSolution.map fun kv => (kv.1, subsSymbols replaceDict kv.2)

/-- The symbols of a solved system: its keys together with every `Symbol`
atom of its values. -/
def systemSymbols (solution : List (SymExpr × SymExpr)) : List SymExpr :=
  dkeys solution ++ solution.flatMap fun kv => atomsSyms kv.2

/-!
The non-homogeneous pipeline (`_solveNonHomogeneous`, lines 386-447).  The
two sympy services it calls — `solve_undetermined_coeffs` inside
`_solveParticularCoefficients`, and the `simplify() != 0` test — enter as
function parameters; the remainder (general-solution fit) is the
continuation.
-/

/-- The terms of a sympy `Add`, and the one-element list otherwise. -/
def asTerms : SymExpr → List SymExpr
  | add l => l
  | e => [e]

/-- sympy addition of two expressions, flattening nested `Add`s. -/
def addExpr (a b : SymExpr) : SymExpr := add (asTerms a ++ asTerms b)

/-- `particularSolutionForm.subs(n, n - i)` (line 415). -/
def shiftN (i : ℤ) (e : SymExpr) : SymExpr :=
  subsSymbols [(varN, add [varN, num (-(i : ℚ))])] e

/-- Lines 402-419: bring `s(n)` to one side
(`self._recurrence - sympy.sympify("s(n)")`) and substitute the particular
template, shifted, for `s(n - i)` for every `i` in `0..degree`. -/
def substitutedParticularRecurrence (recurrence : SymExpr) (degree : ℕ)
    (realroots : List (SymExpr × ℕ)) (nonHomogenous : SymExpr) : SymExpr :=
  let form := theorem6SolutionBuilder realroots nonHomogenous
  (List.range (degree + 1)).foldl
    (fun e i => substSCall (i : ℤ) (shiftN (i : ℤ) form) e)
    (addExpr recurrence (mul [num (-1), scall 0]))

/-- `_solveNonHomogeneous` (lines 386-447) up to the residual check:
`solveUndet` models `_solveParticularCoefficients` (its `None` result
raises, line 379-380), the solved coefficients have their free variables
zeroed, and if the residual does not simplify to zero the solve fails
(lines 433-434); otherwise the filled-in particular solution is handed to
the continuation (general-solution fit, lines 437-447). -/
def solveNonHomogeneousStage {α : Type}
    (solveUndet : SymExpr → Option (List (SymExpr × SymExpr)))
    (simplifiesToZero : SymExpr → Bool)
    (recurrence : SymExpr) (degree : ℕ)
    (realroots : List (SymExpr × ℕ)) (nonHomogenous : SymExpr)
    (cont : SymExpr → Except String α) : Except String α :=
  let solveable := substitutedParticularRecurrence recurrence degree realroots nonHomogenous
  match solveUndet solveable with
  | none =>
      .error "Could not solve one of the sub equations of the filled in recurrence with the particular solution."
  | some solution =>
      let vars := setFreeVariablesToZero solution
      if simplifiesToZero (subsSymbols vars solveable) then
        cont (subsSymbols vars (theorem6SolutionBuilder realroots nonHomogenous))
      else
        .error "Filling in solved coefficient for the recurrence where the particular solution has been fillled doesn't lead to a correct equation."

/-!
The iterative evaluator (`calculateValueFromRecurrence`, lines 613-642) and
the object state it runs on.
-/

/-- The state of a `RecurrenceRelation` object: the parsed recurrence, the
memo dictionary `_solvedValues`, and the `_degree` attribute — `none`
models the attribute never having been assigned (it is set only inside
`_solve`, line 548; reading it then raises `AttributeError`). -/
structure RecState where
  recurrence : SymExpr
  solvedValues : List (ℤ × SymExpr)
  degree : Option ℕ

/-- `__init__` (lines 26-50): `_solvedValues` starts as a copy of the
initial conditions (keyed by integers, as produced by the parser) and
`_degree` is not assigned. -/
def freshRelation (recurrence : SymExpr) (initialConditions : List (ℤ × SymExpr)) : RecState :=
  ⟨recurrence, initialConditions, none⟩

/-- Python `max(d)` over a dictionary's integer keys; `none` models the
`ValueError` on an empty dictionary. -/
def maxKeyZ : List (ℤ × SymExpr) → Option ℤ
  | [] => none
  | kv :: rest =>
      match maxKeyZ rest with
      | none => some kv.1
      | some m => some (max kv.1 m)

/-- Python `range(a, b + 1)` over integers. -/
def intRangeIncl (a b : ℤ) : List ℤ :=
  (List.range (b + 1 - a).toNat).map fun k => a + (k : ℤ)

/-- The body of one iteration of `calculateValueFromRecurrence`'s loop
(lines 631-640): substitute the stored value for `s(n - j)` for each `j` in
`1..degree` (a missing key raises `KeyError`), then substitute the
iteration index for `n`.  (The trailing `.simplify()` does not change the
value and is not modeled.) -/
def recurrenceIterBody (recurrence : SymExpr) (deg : ℕ)
    (vals : List (ℤ × SymExpr)) (i : ℤ) : Except String SymExpr :=
  ((List.range deg).foldlM
    (fun e j =>
      match dlookup (i - ((j : ℤ) + 1)) vals with
      | none => Except.error "KeyError"
      | some v => Except.ok (substSCall ((j : ℤ) + 1) v e))
    recurrence).map
    fun e => subsSymbols [(varN, num (i : ℚ))] e

/-- The loop of lines 631-640.  Each iteration reads `self._degree`; if the
attribute was never assigned this raises `AttributeError`. -/
def calcLoop (recurrence : SymExpr) (degree : Option ℕ) :
    List ℤ → List (ℤ × SymExpr) → Except String (List (ℤ × SymExpr))
  | [], vals => .ok vals
  | i :: rest, vals =>
      match degree with
      | none => .error "AttributeError: _degree"
      | some deg =>
          match recurrenceIterBody recurrence deg vals i with
          | .error m => .error m
          | .ok v => calcLoop recurrence degree rest (dinsert i v vals)

/-- `calculateValueFromRecurrence` (lines 613-642): return the memoized
value if present; otherwise iterate from one past the largest memoized key
(`ValueError` when the memo is empty) up to `n`, then look `n` up
(`KeyError` when the loop never reached it).  The trailing `.evalf(100)`
renders the value numerically; we return the stored expression. -/
def calculateValueFromRecurrence (st : RecState) (nv : ℤ) : Except String SymExpr :=
  match dlookup nv st.solvedValues with
  | some v => .ok v
  | none =>
      match maxKeyZ st.solvedValues with
      | none => .error "ValueError: max() arg is an empty sequence"
      | some mk =>
          match calcLoop st.recurrence st.degree (intRangeIncl (mk + 1) nv) st.solvedValues with
          | .error m => .error m
          | .ok vals =>
              match dlookup nv vals with
              | some v => .ok v
              | none => .error "KeyError"

end SymExpr

/-!
The exact linear solver.  The source solves its two linear systems through
`sympy.solvers.solveset.linsolve` (line 193) and then zeroes the remaining
free symbols with `_set_free_variables_to_zero` (line 205); the spec (§2
LinSolve) describes the composite as an exact solver over the rationals
that returns a parametric solution with free symbols set to zero.
`linSolve` models that composite by Gaussian elimination: a system is a
list of equations `(coefficients, constant)` standing for
`coefficients ⬝ x + constant = 0`; a column without a pivot is a free
symbol and its solution component is `0`.
-/

section LinSolve

variable {K : Type} [Field K] [DecidableEq K]

/-- The dot product of a coefficient row with a solution vector. -/
def dotProd : List K → List K → K
  | a :: as, x :: xs => a * x + dotProd as xs
  | _, _ => 0

/-- The leading coefficient of an equation (`0` for an empty row). -/
def headCoeff (e : List K × K) : K :=
  match e.1 with
  | [] => 0
  | a :: _ => a

/-- Drop an equation's leading coefficient. -/
def tailEq (e : List K × K) : List K × K := (e.1.tail, e.2)

/-- The first equation whose leading coefficient is non-zero, together with
the remaining equations. -/
def findPivotRow : List (List K × K) → Option ((List K × K) × List (List K × K))
  | [] => none
  | e :: rest =>
      if headCoeff e = 0 then (findPivotRow rest).map fun pr => (pr.1, e :: pr.2)
      else some (e, rest)

/-- Eliminate the leading column of `e` using the pivot equation. -/
def elimStep (piv e : List K × K) : List K × K :=
  (List.zipWith (fun x y => x - y) e.1.tail
      ((piv.1.tail).map fun y => headCoeff e / headCoeff piv * y),
    e.2 - headCoeff e / headCoeff piv * piv.2)

/-- Gaussian elimination on `s` symbols, returning an assignment with every
free symbol set to `0`, or `none` when the system is inconsistent. -/
def linSolve : ℕ → List (List K × K) → Option (List K)
  | 0, eqs => if eqs.all (fun e => decide (e.2 = 0)) then some [] else none
  | s + 1, eqs =>
      match findPivotRow eqs with
      | none => (linSolve s (eqs.map tailEq)).map fun xs => 0 :: xs
      | some (piv, others) =>
          (linSolve s (others.map (elimStep piv))).map fun xs =>
            (-(piv.2 + dotProd piv.1.tail xs)) / headCoeff piv :: xs

theorem dotProd_nil_right (a : List K) : dotProd a ([] : List K) = 0 := by
  cases a <;> simp [dotProd]

theorem dotProd_map_smul (c : K) :
    ∀ (a x : List K), dotProd (a.map fun y => c * y) x = c * dotProd a x := by
  intro a
  induction a with
  | nil => intro x; simp [dotProd]
  | cons y ys ih =>
      intro x
      cases x with
      | nil => simp [dotProd]
      | cons z zs => simp [dotProd, ih, mul_add, mul_assoc]

theorem dotProd_zipWith_sub (a b x : List K) (hab : a.length = b.length) :
    dotProd (List.zipWith (fun u v => u - v) a b) x = dotProd a x - dotProd b x := by
  induction a generalizing b x with
  | nil =>
      cases b with
      | nil => simp [dotProd]
      | cons z zs => simp at hab
  | cons y ys ih =>
      cases b with
      | nil => simp at hab
      | cons z zs =>
          cases x with
          | nil => simp [dotProd]
          | cons w ws =>
              simp only [List.zipWith_cons_cons, dotProd]
              rw [ih zs ws (by simpa using hab)]
              ring

theorem findPivotRow_none (eqs : List (List K × K)) (h : findPivotRow eqs = none) :
    ∀ e ∈ eqs, headCoeff e = 0 := by
  induction eqs with
  | nil => intro e he; simp at he
  | cons e0 rest ih =>
      intro e he
      by_cases h0 : headCoeff e0 = 0
      · simp [findPivotRow, h0] at h
        rcases List.mem_cons.1 he with he0 | hrest
        · exact he0 ▸ h0
        · cases hp : findPivotRow rest with
          | none => exact ih hp e hrest
          | some pr => rw [hp] at h; simp at h
      · simp [findPivotRow, h0] at h

theorem findPivotRow_some (eqs : List (List K × K)) (piv : List K × K)
    (others : List (List K × K)) (h : findPivotRow eqs = some (piv, others)) :
    headCoeff piv ≠ 0 ∧ piv ∈ eqs ∧ (∀ e ∈ eqs, e = piv ∨ e ∈ others) ∧
      (∀ e ∈ others, e ∈ eqs) := by
  induction eqs generalizing others with
  | nil => simp [findPivotRow] at h
  | cons e0 rest ih =>
      by_cases h0 : headCoeff e0 = 0
      · simp only [findPivotRow, h0, if_pos rfl] at h
        cases hp : findPivotRow rest with
        | none => rw [hp] at h; simp at h
        | some pr =>
            rw [hp] at h
            have h2 : some (pr.1, e0 :: pr.2) = some (piv, others) := h
            have h3 := Option.some.inj h2
            have hpiv : pr.1 = piv := congrArg Prod.fst h3
            have hoth : e0 :: pr.2 = others := congrArg Prod.snd h3
            subst hpiv
            subst hoth
            obtain ⟨hne, hmem, hcover, hsub⟩ := ih pr.2 (by rw [hp])
            refine ⟨hne, List.mem_cons_of_mem _ hmem, ?_, ?_⟩
            · intro e he
              rcases List.mem_cons.1 he with he0 | hrest
              · exact Or.inr (he0 ▸ List.mem_cons_self _ _)
              · rcases hcover e hrest with h1 | h2
                · exact Or.inl h1
                · exact Or.inr (List.mem_cons_of_mem _ h2)
            · intro e he
              rcases List.mem_cons.1 he with he0 | hrest
              · exact he0 ▸ List.mem_cons_self _ _
              · exact List.mem_cons_of_mem _ (hsub e hrest)
      · simp only [findPivotRow, h0, if_neg h0] at h
        cases h
        exact ⟨h0, List.mem_cons_self _ _,
          fun e he => (List.mem_cons.1 he).imp id id, fun e he => List.mem_cons_of_mem _ he⟩

theorem elimStep_length (piv e : List K × K) (s : ℕ)
    (hp : piv.1.length = s + 1) (he : e.1.length = s + 1) :
    (elimStep piv e).1.length = s := by
  simp [elimStep]
  omega

theorem linSolve_sound :
    ∀ (s : ℕ) (eqs : List (List K × K)) (xs : List K),
      (∀ e ∈ eqs, e.1.length = s) → linSolve s eqs = some xs →
      xs.length = s ∧ ∀ e ∈ eqs, dotProd e.1 xs + e.2 = 0 := by
  intro s
  induction s with
  | zero =>
      intro eqs xs hlen h
      simp only [linSolve] at h
      by_cases hall : eqs.all (fun e => decide (e.2 = 0))
      · rw [if_pos hall] at h
        cases h
        refine ⟨rfl, fun e he => ?_⟩
        have h2 : e.2 = 0 := by simpa using List.all_eq_true.1 hall e he
        have h1 : e.1 = [] := List.length_eq_zero.1 (hlen e he)
        simp [h1, h2, dotProd]
      · rw [if_neg hall] at h; cases h
  | succ s ih =>
      intro eqs xs hlen h
      simp only [linSolve] at h
      cases hp : findPivotRow eqs with
      | none =>
          rw [hp] at h
          cases hrec : linSolve s (eqs.map tailEq) with
          | none => rw [hrec] at h; simp at h
          | some ys =>
              rw [hrec] at h
              simp only [Option.map_some] at h
              cases h
              have hlen' : ∀ e ∈ eqs.map tailEq, e.1.length = s := by
                intro e he
                obtain ⟨e0, he0, rfl⟩ := List.mem_map.1 he
                have := hlen e0 he0
                simp [tailEq]
                omega
              obtain ⟨hyslen, hys⟩ := ih (eqs.map tailEq) ys hlen' hrec
              refine ⟨by simp [hyslen], fun e he => ?_⟩
              have hcons : ∃ a t, e.1 = a :: t := by
                cases h1 : e.1 with
                | nil => have := hlen e he; rw [h1] at this; simp at this
                | cons a t => exact ⟨a, t, rfl⟩
              obtain ⟨a, t, hat⟩ := hcons
              have htl := hys (tailEq e) (List.mem_map_of_mem _ he)
              simp [tailEq, hat, dotProd] at htl ⊢
              exact htl
      | some pr =>
          obtain ⟨piv, others⟩ := pr
          rw [hp] at h
          have h2 : Option.map
              (fun xs => (-(piv.2 + dotProd piv.1.tail xs)) / headCoeff piv :: xs)
              (linSolve s (others.map (elimStep piv))) = some xs := h
          cases hrec : linSolve s (others.map (elimStep piv)) with
          | none => rw [hrec] at h2; simp at h2
          | some ys =>
              rw [hrec] at h2
              have h4 : some ((-(piv.2 + dotProd piv.1.tail ys)) / headCoeff piv :: ys)
                  = some xs := h2
              obtain rfl := Option.some.inj h4
              obtain ⟨hpiv0, hpivmem, hcover, hsub⟩ := findPivotRow_some eqs piv others hp
              have hlen' : ∀ e ∈ others.map (elimStep piv), e.1.length = s := by
                intro e he
                obtain ⟨e0, he0, rfl⟩ := List.mem_map.1 he
                exact elimStep_length piv e0 s (hlen piv hpivmem) (hlen e0 (hsub e0 he0))
              obtain ⟨hyslen, hys⟩ := ih (others.map (elimStep piv)) ys hlen' hrec
              set x0 : K := (-(piv.2 + dotProd piv.1.tail ys)) / headCoeff piv with hx0
              have hpivlen : piv.1.length = s + 1 := hlen piv hpivmem
              obtain ⟨p, pt, hpiv1⟩ : ∃ p pt, piv.1 = p :: pt := by
                cases h1 : piv.1 with
                | nil => rw [h1] at hpivlen; simp at hpivlen
                | cons p pt => exact ⟨p, pt, rfl⟩
              have hheadp : headCoeff piv = p := by simp [headCoeff, hpiv1]
              have hpt : piv.1.tail = pt := by rw [hpiv1]; rfl
              have hpne : p ≠ 0 := hheadp ▸ hpiv0
              refine ⟨by simp [hyslen], fun e he => ?_⟩
              rcases hcover e he with hepiv | hothers
              · -- the pivot equation itself
                rw [hepiv, hpiv1]
                simp only [dotProd]
                have hkey : p * x0 = -(piv.2 + dotProd pt ys) := by
                  rw [hx0, hheadp, hpt, mul_comm]
                  exact div_mul_cancel₀ _ hpne
                rw [hkey]
                ring
              · -- an eliminated equation
                obtain ⟨a, t, hat⟩ : ∃ a t, e.1 = a :: t := by
                  cases h1 : e.1 with
                  | nil =>
                      have := hlen e he
                      rw [h1] at this; simp at this
                  | cons a t => exact ⟨a, t, rfl⟩
                have helim := hys (elimStep piv e) (List.mem_map_of_mem _ hothers)
                have hhead : headCoeff e = a := by simp [headCoeff, hat]
                have hptlen : pt.length = s := by
                  rw [hpiv1] at hpivlen; simpa using hpivlen
                have htlen : t.length = s := by
                  have := hlen e he
                  rw [hat] at this; simpa using this
                simp only [elimStep, hat, hpiv1, List.tail_cons, hhead, hheadp] at helim
                rw [dotProd_zipWith_sub _ _ _ (by simp [htlen, hptlen])] at helim
                rw [dotProd_map_smul] at helim
                rw [hat]
                simp only [dotProd]
                have hx0val : a * x0 = -(a / p * (piv.2 + dotProd pt ys)) := by
                  rw [hx0, hheadp, hpt]
                  ring
                rw [hx0val]
                linear_combination helim

end LinSolve

/-!
The general solution and the initial-conditions fit
(`_getGeneralSolution` lines 140-167, `_calculateClosedFromGeneralSolution`
lines 169-212).

`_getGeneralSolution` emits `Σ_i (Σ_{j=0..m_i-1} p_i_j · n^j) · ρ_i^n` over
the roots in insertion order; the fit substitutes each initial-condition
index for `n`, subtracts the condition's value, and solves the resulting
linear system in the `p` symbols with `linsolve`, zeroing the free symbols.
Since the general solution is affine in the `p` symbols, it is represented
semantically by the coefficient row of the `p` vector at each index; the
non-homogeneous path adds the already-solved particular solution, which
enters as the function `particular` (identically `0` on the homogeneous
path).  The field `K` holds the root values (the characteristic roots may
be irrational reals). -/

section InitialFit

variable {K : Type} [Field K] [DecidableEq K]

/-- The coefficients of the `p` symbols in the general solution evaluated at
`n = x`: for the `i`-th root `ρ` of multiplicity `m` and `j < m`, the symbol
`p_i_j` multiplies `x^j · ρ^x`. -/
def generalSolutionRow (roots : List (K × ℕ)) (x : ℕ) : List K :=
  roots.flatMap fun p => (List.range p.2).map fun j => (x : K) ^ j * p.1 ^ x

/-- The number of `p` symbols the general solution introduces. -/
def numCoeffSymbols (roots : List (K × ℕ)) : ℕ := (roots.map Prod.snd).sum

/-- The linear system of `_calculateClosedFromGeneralSolution` (lines
182-185): one equation `S(i) - v = 0` per initial condition `(i, v)`, with
`S = particular + general`. -/
def initialFitEquations (roots : List (K × ℕ)) (particular : ℕ → K)
    (ics : List (ℕ × K)) : List (List K × K) :=
  ics.map fun iv => (generalSolutionRow roots iv.1, particular iv.1 - iv.2)

/-- `_calculateClosedFromGeneralSolution` (lines 169-212): solve the system
(`linsolve`, line 193; empty solution set raises, lines 195-196; free
symbols zeroed, line 205) and return the assignment of the `p` symbols that
is substituted back into the general solution (line 210). -/
def calculateClosedFromGeneralSolution (roots : List (K × ℕ)) (particular : ℕ → K)
    (ics : List (ℕ × K)) : Option (List K) :=
  linSolve (numCoeffSymbols roots) (initialFitEquations roots particular ics)

/-- The value of the returned closed form at `n = x`: the particular part
plus the fitted `p` combination. -/
def closedFormValue (roots : List (K × ℕ)) (particular : ℕ → K)
    (sol : List K) (x : ℕ) : K :=
  particular x + dotProd (generalSolutionRow roots x) sol

theorem generalSolutionRow_length (roots : List (K × ℕ)) (x : ℕ) :
    (generalSolutionRow roots x).length = numCoeffSymbols roots := by
  induction roots with
  | nil => simp [generalSolutionRow, numCoeffSymbols]
  | cons p rest ih =>
      simp [generalSolutionRow, numCoeffSymbols] at ih ⊢
      exact ih

end InitialFit

deriving instance DecidableEq for Except

/-!
Theorems.  Each claim of the specification is settled by one theorem below;
shared lemmas precede them.
-/

/-- C4: for every recurrence whose characteristic polynomial has real-root
multiplicities summing to strictly less than the order `k` (complex roots
present after the real-root filter), `solve()` fails with an error and
returns no closed form — whatever the rest of the pipeline (`cont`) would
have done.  `rs` is the root data produced by sympy's root finder after the
complex filter (lines 561-563), tied by `hroots` to the actual multiset of
roots of the characteristic polynomial `r^k − Σ c_j r^(k−j)` over ℝ. -/
theorem solve_fails_on_complex_roots {α : Type} (k : ℕ) (c : ℕ → ℚ)
    (rs : List (ℝ × ℕ)) (cont : List (ℝ × ℕ) → Except String α)
    (hroots : rootsMultiset rs =
      (Polynomial.X ^ k - ∑ j in Finset.range k,
        Polynomial.C ((c (j + 1) : ℝ)) * Polynomial.X ^ (k - (j + 1))).roots)
    (hcomplex : Multiset.card
      (Polynomial.X ^ k - ∑ j in Finset.range k,
        Polynomial.C ((c (j + 1) : ℝ)) * Polynomial.X ^ (k - (j + 1)) :
          Polynomial ℝ).roots < k) :
    solveRootsStage k rs cont =
      .error "The characteristic equation has real roots whose multiplicities sum differs from the degree" := by
  have h1 : sumMultiplicities rs < k := by
    rw [← card_rootsMultiset rs, hroots]
    exact hcomplex
  unfold solveRootsStage
  rw [if_pos (Nat.ne_of_lt h1)]

/-- C9: in the non-homogeneous solve, after the solved `q` coefficients
(with free variables zeroed) are substituted back into the recurrence with
the particular template filled in, the residual must simplify to `0`;
otherwise `solve()` fails with an error instead of returning a closed
form.  `solveUndet` and `simplifiesToZero` are the sympy services
(`solve_undetermined_coeffs`-based coefficient solving, and the
`simplify() != 0` test of line 433). -/
theorem residual_nonzero_fails {α : Type}
    (solveUndet : SymExpr → Option (List (SymExpr × SymExpr)))
    (simplifiesToZero : SymExpr → Bool)
    (recurrence : SymExpr) (degree : ℕ) (realroots : List (SymExpr × ℕ))
    (nonHomogenous : SymExpr) (cont : SymExpr → Except String α)
    (sol : List (SymExpr × SymExpr))
    (hsol : solveUndet
      (SymExpr.substitutedParticularRecurrence recurrence degree realroots nonHomogenous)
      = some sol)
    (hres : simplifiesToZero
      (SymExpr.subsSymbols (SymExpr.setFreeVariablesToZero sol)
        (SymExpr.substitutedParticularRecurrence recurrence degree realroots nonHomogenous))
      = false) :
    SymExpr.solveNonHomogeneousStage solveUndet simplifiesToZero recurrence degree
        realroots nonHomogenous cont
      = .error "Filling in solved coefficient for the recurrence where the particular solution has been fillled doesn't lead to a correct equation." := by
  simp only [SymExpr.solveNonHomogeneousStage, hsol, hres]
  rfl

/-- C10: on a freshly constructed `RecurrenceRelation` on which `solve()`
has never run, `calculateValueFromRecurrence(n)` for any `n` that is not an
initial-condition index raises an exception instead of returning a value:
the loop body reads the `_degree` attribute, which only `_solve` assigns
(`AttributeError`); below the lowest initial-condition index the loop is
empty and the memo lookup fails (`KeyError`); and with no initial
conditions at all `max()` fails (`ValueError`). -/
theorem recurrence_eval_before_solve_errors (recurrence : SymExpr)
    (ics : List (ℤ × SymExpr)) (nv : ℤ) (hnv : dlookup nv ics = none) :
    ∃ msg, SymExpr.calculateValueFromRecurrence
      (SymExpr.freshRelation recurrence ics) nv = .error msg := by
  unfold SymExpr.calculateValueFromRecurrence SymExpr.freshRelation
  simp only [hnv]
  cases hmk : SymExpr.maxKeyZ ics with
  | none => exact ⟨_, rfl⟩
  | some mk =>
      simp only [hmk]
      cases hr : SymExpr.intRangeIncl (mk + 1) nv with
      | nil =>
          simp only [hr, SymExpr.calcLoop, hnv]
          exact ⟨_, rfl⟩
      | cons i rest =>
          simp only [hr, SymExpr.calcLoop]
          exact ⟨_, rfl⟩

/-- Witness for C4 at the concrete characteristic polynomial `r^2 + 1`
(order 2, `c_1 = 0`, `c_2 = −1`), which has no real roots, so the
real-filtered root list is empty. -/
theorem solve_fails_on_complex_roots_witness :
    solveRootsStage 2 ([] : List (ℝ × ℕ)) (fun _ => Except.ok 0)
      = .error "The characteristic equation has real roots whose multiplicities sum differs from the degree" := by
  have hpoly : (Polynomial.X ^ 2 - ∑ j in Finset.range 2,
      Polynomial.C (((if j + 1 = 2 then (-1 : ℚ) else 0) : ℚ) : ℝ) *
        Polynomial.X ^ (2 - (j + 1))) = (Polynomial.X ^ 2 + 1 : Polynomial ℝ) := by
    rw [Finset.sum_range_succ, Finset.sum_range_one]
    norm_num
  have hne : (Polynomial.X ^ 2 + 1 : Polynomial ℝ) ≠ 0 := by
    intro h
    have h0 := congrArg (Polynomial.eval 0) h
    simp at h0
  have hroots0 : (Polynomial.X ^ 2 + 1 : Polynomial ℝ).roots = 0 := by
    refine Multiset.eq_zero_of_forall_not_mem fun a ha => ?_
    rw [Polynomial.mem_roots hne] at ha
    have ha2 : a ^ 2 + 1 = 0 := by simpa [Polynomial.IsRoot] using ha
    nlinarith [sq_nonneg a]
  refine solve_fails_on_complex_roots 2 (fun j => if j = 2 then (-1 : ℚ) else 0) [] _ ?_ ?_
  · rw [hpoly, hroots0]
    simp [rootsMultiset]
  · rw [hpoly, hroots0]
    simp

/-- Witness for C9: concrete oracles whose residual test fails make the
stage return the residual error on a concrete non-homogeneous recurrence
(`s(n) = s(n-1) + 1`). -/
theorem residual_nonzero_fails_witness :
    SymExpr.solveNonHomogeneousStage (fun _ => some []) (fun _ => false)
      (SymExpr.add [SymExpr.scall 1, SymExpr.num 1]) 1 [(SymExpr.num 1, 1)] (SymExpr.num 1)
      (fun _ => Except.ok (SymExpr.num 0))
      = .error "Filling in solved coefficient for the recurrence where the particular solution has been fillled doesn't lead to a correct equation." :=
  residual_nonzero_fails _ _ _ _ _ _ _ [] rfl rfl

/-- Witness for C10: a fresh relation with initial condition `s(0) = 1`
raises when the iterative evaluator is asked for `n = 3`. -/
theorem recurrence_eval_before_solve_errors_witness :
    dlookup (3 : ℤ) [((0 : ℤ), SymExpr.num 1)] = none ∧
    ∃ msg, SymExpr.calculateValueFromRecurrence
      (SymExpr.freshRelation (SymExpr.scall 1) [((0 : ℤ), SymExpr.num 1)]) 3 = .error msg :=
  ⟨rfl, recurrence_eval_before_solve_errors _ _ _ rfl⟩

namespace SymExpr

theorem analyseLoop_linear_iff :
    ∀ (ts : List SymExpr) (acc res : Analysis), acc.linear = true →
      analyseLoop ts acc = .ok res →
      (res.linear = false ↔ ∃ t ∈ ts, hasS t = true ∧ codeNonLinearTerm t = true) := by
  intro ts
  induction ts with
  | nil =>
      intro acc res hacc h
      simp only [analyseLoop] at h
      cases h
      simp [hacc]
  | cons t rest ih =>
      intro acc res hacc h
      simp only [analyseLoop] at h
      by_cases hS : hasS t = true
      · rw [if_pos hS] at h
        cases hd : termDegree t with
        | none => rw [hd] at h; simp at h
        | some d =>
            simp only [hd] at h
            by_cases hP : hasPowNode t = true
            · rw [if_pos hP] at h
              cases h
              refine ⟨fun _ => ⟨t, List.mem_cons_self _ _, hS,
                by simp [codeNonLinearTerm, hP]⟩, fun _ => rfl⟩
            · rw [if_neg hP] at h
              by_cases hM : mulNonLinearCheck t = true
              · rw [if_pos hM] at h
                cases h
                refine ⟨fun _ => ⟨t, List.mem_cons_self _ _, hS,
                  by simp [codeNonLinearTerm, hM]⟩, fun _ => rfl⟩
              · rw [if_neg hM] at h
                have hcode : codeNonLinearTerm t = false := by
                  simp only [codeNonLinearTerm, Bool.or_eq_false_iff]
                  exact ⟨Bool.not_eq_true _ ▸ hP, Bool.not_eq_true _ ▸ hM⟩
                have := ih ⟨if acc.degree < d then d else acc.degree,
                  acc.homogenous ++ [t], acc.nonHomogenous, acc.linear⟩ res hacc h
                rw [this]
                constructor
                · intro ⟨u, hu, hus, huc⟩; exact ⟨u, List.mem_cons_of_mem _ hu, hus, huc⟩
                · intro ⟨u, hu, hus, huc⟩
                  rcases List.mem_cons.1 hu with rfl | hu2
                  · rw [hcode] at huc; cases huc
                  · exact ⟨u, hu2, hus, huc⟩
      · rw [if_neg hS] at h
        have := ih ⟨acc.degree, acc.homogenous, acc.nonHomogenous ++ [t], acc.linear⟩
          res hacc h
        rw [this]
        constructor
        · intro ⟨u, hu, hus, huc⟩; exact ⟨u, List.mem_cons_of_mem _ hu, hus, huc⟩
        · intro ⟨u, hu, hus, huc⟩
          rcases List.mem_cons.1 hu with rfl | hu2
          · exact absurd hus hS
          · exact ⟨u, hu2, hus, huc⟩

theorem analyseLoop_ok_partition :
    ∀ (ts : List SymExpr) (acc res : Analysis),
      analyseLoop ts acc = .ok res → res.linear = true → acc.linear = true →
      res.homogenous = acc.homogenous ++ ts.filter (fun t => hasS t) ∧
      res.nonHomogenous = acc.nonHomogenous ++ ts.filter (fun t => !hasS t) ∧
      res.degree = ts.foldl
        (fun d t => if hasS t then
          (if d < (termDegree t).getD 0 then (termDegree t).getD 0 else d) else d)
        acc.degree := by
  intro ts
  induction ts with
  | nil =>
      intro acc res h _ _
      simp only [analyseLoop] at h
      cases h
      simp
  | cons t rest ih =>
      intro acc res h hres hacc
      simp only [analyseLoop] at h
      by_cases hS : hasS t = true
      · rw [if_pos hS] at h
        cases hd : termDegree t with
        | none => rw [hd] at h; simp at h
        | some d =>
            simp only [hd] at h
            by_cases hP : hasPowNode t = true
            · rw [if_pos hP] at h
              cases h
              simp at hres
            · rw [if_neg hP] at h
              by_cases hM : mulNonLinearCheck t = true
              · rw [if_pos hM] at h
                cases h
                simp at hres
              · rw [if_neg hM] at h
                obtain ⟨h1, h2, h3⟩ := ih _ res h hres hacc
                refine ⟨?_, ?_, ?_⟩
                · rw [h1]; simp [hS]
                · rw [h2]; simp [hS]
                · rw [h3]; simp [hS, hd]
      · rw [if_neg hS] at h
        obtain ⟨h1, h2, h3⟩ := ih _ res h hres hacc
        refine ⟨?_, ?_, ?_⟩
        · rw [h1]; simp [hS]
        · rw [h2]; simp [hS]
        · rw [h3]; simp [hS]

theorem degree_foldl_eq_maxOffset :
    ∀ (ts : List SymExpr) (d0 : ℕ),
      (∀ t ∈ ts, hasS t = true → ∃ j : ℤ, 1 ≤ j ∧ findSCalls t = [j]) →
      ts.foldl
        (fun d t => if hasS t then
          (if d < (termDegree t).getD 0 then (termDegree t).getD 0 else d) else d)
        d0
        = (findSCallsList (ts.filter fun t => hasS t)).foldl
            (fun m j => Nat.max m j.toNat) d0 := by
  intro ts
  induction ts with
  | nil => intro d0 _; simp [findSCallsList]
  | cons t rest ih =>
      intro d0 hone
      by_cases hS : hasS t = true
      · obtain ⟨j, hj1, hjf⟩ := hone t (List.mem_cons_self _ _) hS
        have hdeg : termDegree t = some j.natAbs := by
          rw [termDegree, hjf]
          simp [termDegreeDigits]
          omega
        have hrest : ∀ t ∈ rest, hasS t = true → ∃ j : ℤ, 1 ≤ j ∧ findSCalls t = [j] :=
          fun u hu => hone u (List.mem_cons_of_mem _ hu)
        simp only [List.foldl_cons, List.filter_cons, hS, if_pos rfl]
        rw [ih _ hrest]
        have hgoal : (if d0 < (termDegree t).getD 0 then (termDegree t).getD 0 else d0)
            = ((findSCalls t).foldl (fun m j => Nat.max m j.toNat) d0) := by
          rw [hdeg, hjf]
          simp only [Option.getD_some, List.foldl_cons, List.foldl_nil]
          have habs : j.natAbs = j.toNat := by omega
          rw [habs]
          rcases Nat.lt_or_ge d0 j.toNat with hlt | hge
          · rw [if_pos hlt]
            exact (Nat.max_eq_right (le_of_lt hlt)).symm
          · rw [if_neg (not_lt.2 hge)]
            exact (Nat.max_eq_left hge).symm
        rw [hgoal]
        simp [findSCallsList, List.foldl_append, hjf]
      · have hrest : ∀ t ∈ rest, hasS t = true → ∃ j : ℤ, 1 ≤ j ∧ findSCalls t = [j] :=
          fun u hu => hone u (List.mem_cons_of_mem _ hu)
        simp only [List.foldl_cons, List.filter_cons, hS, Bool.false_eq_true, if_false]
        exact ih _ hrest


end SymExpr

namespace SymExpr

/-- C6 (corrected) counterexample: for the top-level `Mul` recurrence
`2*s(n-1)` the analyzer iterates the factors, so the homogeneous part
receives only `s(n-1)` and the forcing part receives `2` — not the
partition of the top-level added terms the claim describes, under which the
single added term `2*s(n-1)` (which mentions `s`) would itself form `H` and
`F` would be empty. -/
theorem analyser_mul_toplevel_counterexample :
    analyseExpression (mul [num 2, scall 1])
      = .ok ⟨1, [scall 1], [num 2], true⟩ ∧
    (specTopTerms (mul [num 2, scall 1])).filter (fun t => hasS t)
      = [mul [num 2, scall 1]] ∧
    (specTopTerms (mul [num 2, scall 1])).filter (fun t => !hasS t)
      = ([] : List SymExpr) ∧
    ([scall 1] : List SymExpr) ≠ [mul [num 2, scall 1]] ∧
    ([num 2] : List SymExpr) ≠ ([] : List SymExpr) := by
  refine ⟨by decide, by decide, by decide, by decide, by decide⟩

/-- C6 (amended): the analyzer partitions the terms it actually iterates
over — the top-level added terms when the input is an `Add` (or a
single-argument node), but the immediate operands (e.g. the factors of a
top-level `Mul`) otherwise — sending exactly the `s`-mentioning terms to
the homogeneous part and the rest to the forcing part; and, when every
homogeneous term contains exactly one call `s(n - j)` with `j ≥ 1`, the
returned order is the maximum offset over the occurrences of `s(n - j)` in
the homogeneous part.  (On a successful run with the linear flag set: a
non-linearity `break` would truncate the partition.) -/
theorem analyser_partition_amended (recurrence : SymExpr) (res : Analysis)
    (h : analyseExpression recurrence = .ok res) (hlin : res.linear = true)
    (hone : ∀ t ∈ iterArgs recurrence, hasS t = true →
      ∃ j : ℤ, 1 ≤ j ∧ findSCalls t = [j]) :
    res.homogenous = (iterArgs recurrence).filter (fun t => hasS t) ∧
    res.nonHomogenous = (iterArgs recurrence).filter (fun t => !hasS t) ∧
    res.degree = maxOffset res.homogenous := by
  obtain ⟨h1, h2, h3⟩ :=
    analyseLoop_ok_partition (iterArgs recurrence) ⟨0, [], [], true⟩ res h hlin rfl
  have h1' : res.homogenous = (iterArgs recurrence).filter (fun t => hasS t) := by
    simpa using h1
  refine ⟨h1', by simpa using h2, ?_⟩
  rw [h3, h1']
  have := degree_foldl_eq_maxOffset (iterArgs recurrence) 0 hone
  simpa [maxOffset] using this

/-- Witness for C6 (amended) on `s(n) = 2*s(n-1) + s(n-2) + 5` given to the
analyzer as the expanded sum, where both conclusions are computed. -/
theorem analyser_partition_amended_witness :
    ∃ res : Analysis,
      analyseExpression (add [mul [num 2, scall 1], scall 2, num 5]) = .ok res ∧
      res.linear = true ∧
      res.homogenous
        = (iterArgs (add [mul [num 2, scall 1], scall 2, num 5])).filter (fun t => hasS t) ∧
      res.nonHomogenous
        = (iterArgs (add [mul [num 2, scall 1], scall 2, num 5])).filter (fun t => !hasS t) ∧
      res.degree = maxOffset res.homogenous := by
  have h : analyseExpression (add [mul [num 2, scall 1], scall 2, num 5])
      = .ok ⟨2, [mul [num 2, scall 1], scall 2], [num 5], true⟩ := by decide
  have hone : ∀ t ∈ iterArgs (add [mul [num 2, scall 1], scall 2, num 5]),
      hasS t = true → ∃ j : ℤ, 1 ≤ j ∧ findSCalls t = [j] := by
    intro t ht hs
    have hIter : iterArgs (add [mul [num 2, scall 1], scall 2, num 5])
        = [mul [num 2, scall 1], scall 2, num 5] := by decide
    rw [hIter] at ht
    rcases List.mem_cons.1 ht with rfl | ht1
    · exact ⟨1, by norm_num, rfl⟩
    · rcases List.mem_cons.1 ht1 with rfl | ht2
      · exact ⟨2, by norm_num, rfl⟩
      · rcases List.mem_cons.1 ht2 with rfl | ht3
        · simp [hasS] at hs
        · simp at ht3
  obtain ⟨h1, h2, h3⟩ :=
    analyser_partition_amended _ ⟨2, [mul [num 2, scall 1], scall 2], [num 5], true⟩ h rfl hone
  exact ⟨_, h, rfl, h1, h2, h3⟩

/-- C7 (corrected) counterexample: for `s(n) = n*s(n-1) + 3` the product
term `n*s(n-1)` has one factor mentioning `s` and another mentioning `n`,
so by the claim `solve()` must fail with the non-linearity error — but the
analyzer's check looks at `args[0].has(s)` only, the first factor `n` does
not mention `s`, and the solve proceeds past the linearity gate without
that error. -/
theorem linear_check_product_counterexample :
    solveCheckLinear (add [mul [varN, scall 1], num 3])
        (fun _ => Except.ok (num 0))
      = .ok (num 0) ∧
    specNonLinearEquation (add [mul [varN, scall 1], num 3]) = true :=
  ⟨rfl, by decide⟩

/-- C7 (amended): `solve()` fails with the non-linearity error exactly when
some iterated term mentioning `s` trips the analyzer's per-term check —
that is, the term contains a `Pow` node anywhere (even a radical constant
coefficient), or it is a `Mul` whose first factor mentions `s` and whose
second factor mentions `s` or `n`.  In particular `s`-and-`n` products
whose first factor is `n` are not flagged. -/
theorem nonlinearity_error_amended {α : Type} (recurrence : SymExpr)
    (cont : Analysis → Except String α) (res : Analysis)
    (h : analyseExpression recurrence = .ok res)
    (hcont : ∀ a, cont a ≠ .error "The equation is not linear") :
    (solveCheckLinear recurrence cont = .error "The equation is not linear"
      ↔ ∃ t ∈ iterArgs recurrence, hasS t = true ∧ codeNonLinearTerm t = true) := by
  have hiff := analyseLoop_linear_iff (iterArgs recurrence) ⟨0, [], [], true⟩ res rfl h
  simp only [solveCheckLinear, h]
  by_cases hl : res.linear = false
  · rw [if_pos hl, ← hiff]
    exact ⟨fun _ => hl, fun _ => rfl⟩
  · rw [if_neg hl]
    constructor
    · intro hc; exact absurd hc (hcont res)
    · intro hex; exact absurd (hiff.mpr hex) hl

/-- Witness for C7 (amended) on `s(n) = s(n-1)^2 + 1`, whose squared call
trips the `Pow` check. -/
theorem nonlinearity_error_amended_witness :
    solveCheckLinear (add [pow (scall 1) (num 2), num 1])
        (fun _ => Except.ok (num 0))
      = .error "The equation is not linear"
      ↔ ∃ t ∈ iterArgs (add [pow (scall 1) (num 2), num 1]),
          hasS t = true ∧ codeNonLinearTerm t = true :=
  nonlinearity_error_amended _ _ ⟨1, [pow (scall 1) (num 2)], [], false⟩ (by decide)
    (fun _ hc => Except.noConfusion hc)

end SymExpr

/-- C2: whenever the initial-conditions fit succeeds (so `solve()` returns a
closed form), evaluating the returned closed form at each initial-condition
index `i` yields exactly the condition's value `v` — an exact equality in
the coefficient field, not merely a tolerance.  `roots` carries the
characteristic roots with multiplicities, `particular` the already-solved
particular solution (`0` for a homogeneous recurrence). -/
theorem initialFit_matches_initial_conditions {K : Type} [Field K] [DecidableEq K]
    (roots : List (K × ℕ)) (particular : ℕ → K) (ics : List (ℕ × K)) (sol : List K)
    (h : calculateClosedFromGeneralSolution roots particular ics = some sol) :
    ∀ iv ∈ ics, closedFormValue roots particular sol iv.1 = iv.2 := by
  intro iv hiv
  have hlen : ∀ e ∈ initialFitEquations roots particular ics,
      e.1.length = numCoeffSymbols roots := by
    intro e he
    obtain ⟨iv0, _, rfl⟩ := List.mem_map.1 he
    exact generalSolutionRow_length roots iv0.1
  obtain ⟨_, hsat⟩ := linSolve_sound (numCoeffSymbols roots) _ sol hlen h
  have heq := hsat (generalSolutionRow roots iv.1, particular iv.1 - iv.2)
    (List.mem_map_of_mem _ hiv)
  simp only [closedFormValue]
  linear_combination heq

/-- Witness for C2 on `s(n) = 6·s(n-1) − 9·s(n-2)` with `s(0)=1`, `s(1)=6`:
the double root `3` gives the fit `p = [1, 1]` (closed form `(1+n)·3^n`),
which reproduces both initial conditions exactly. -/
theorem initialFit_matches_initial_conditions_witness :
    calculateClosedFromGeneralSolution [((3 : ℚ), 2)] (fun _ => 0) [(0, 1), (1, 6)]
      = some [1, 1] ∧
    ∀ iv ∈ [((0 : ℕ), (1 : ℚ)), (1, 6)],
      closedFormValue [((3 : ℚ), 2)] (fun _ => 0) [1, 1] iv.1 = iv.2 := by
  have h : calculateClosedFromGeneralSolution [((3 : ℚ), 2)] (fun _ => 0) [(0, 1), (1, 6)]
      = some [1, 1] := by
    norm_num [calculateClosedFromGeneralSolution, initialFitEquations, generalSolutionRow,
      numCoeffSymbols, linSolve, findPivotRow, headCoeff, dotProd, tailEq, elimStep,
      List.range_succ, List.replicate, List.flatMap]
  exact ⟨h, initialFit_matches_initial_conditions _ _ _ _ h⟩

theorem dlookup_mem {κ ν : Type} [DecidableEq κ] (k : κ) (v : ν) :
    ∀ d : List (κ × ν), dlookup k d = some v → (k, v) ∈ d := by
  intro d
  induction d with
  | nil => intro h; simp [dlookup] at h
  | cons kv rest ih =>
      intro h
      by_cases hk : kv.1 = k
      · simp [dlookup, hk] at h
        subst h
        subst hk
        exact List.mem_cons_self _ _
      · simp [dlookup, hk] at h
        exact List.mem_cons_of_mem _ (ih h)

namespace SymExpr

theorem atomsSyms_isSymbolAtom :
    ∀ e : SymExpr, ∀ a ∈ atomsSyms e, isSymbolAtom a = true := by
  refine @indPair (fun e => ∀ a ∈ atomsSyms e, isSymbolAtom a = true)
    (fun l => ∀ a ∈ atomsSymsList l, isSymbolAtom a = true) ?_ ?_ ?_ ?_ ?_ ?_ ?_ ?_ ?_
  · intro q a ha; simp [atomsSyms] at ha
  · intro a ha; simp [atomsSyms] at ha; subst ha; rfl
  · intro s a ha; simp [atomsSyms] at ha; subst ha; rfl
  · intro j a ha; simp [atomsSyms] at ha; subst ha; rfl
  · intro l ih a ha; exact ih a ha
  · intro l ih a ha; exact ih a ha
  · intro b e ihb ihe a ha
    simp only [atomsSyms, List.mem_append] at ha
    rcases ha with h | h
    · exact ihb a h
    · exact ihe a h
  · intro a ha; simp [atomsSymsList] at ha
  · intro x xs ihx ihxs a ha
    simp only [atomsSymsList, List.mem_append] at ha
    rcases ha with h | h
    · exact ihx a h
    · exact ihxs a h

/-- Every lookup in `buildNewSolution` that succeeds returns the canonical
value `solution[a] if a in solution else a` for its key. -/
theorem buildNewSolution_lookup_canonical (solution : List (SymExpr × SymExpr)) :
    ∀ k, dlookup k (buildNewSolution solution) = none ∨
      dlookup k (buildNewSolution solution) = some ((dlookup k solution).getD k) := by
  have main : ∀ (l : List (SymExpr × SymExpr)) (acc : List (SymExpr × SymExpr)),
      (∀ k, dlookup k acc = none ∨ dlookup k acc = some ((dlookup k solution).getD k)) →
      ∀ k, dlookup k (l.foldl
          (fun acc kv => (atomsSyms kv.2).foldl
            (fun acc2 a => dinsert a ((dlookup a solution).getD a) acc2) acc) acc)
        = none ∨
        dlookup k (l.foldl
          (fun acc kv => (atomsSyms kv.2).foldl
            (fun acc2 a => dinsert a ((dlookup a solution).getD a) acc2) acc) acc)
          = some ((dlookup k solution).getD k) := by
    intro l
    induction l with
    | nil => intro acc hacc k; exact hacc k
    | cons kv rest ih =>
        intro acc hacc k
        refine ih _ ?_ k
        have inner : ∀ (ats : List SymExpr) (acc2 : List (SymExpr × SymExpr)),
            (∀ k, dlookup k acc2 = none ∨
              dlookup k acc2 = some ((dlookup k solution).getD k)) →
            ∀ k, dlookup k (ats.foldl
                (fun acc2 a => dinsert a ((dlookup a solution).getD a) acc2) acc2) = none ∨
              dlookup k (ats.foldl
                (fun acc2 a => dinsert a ((dlookup a solution).getD a) acc2) acc2)
                = some ((dlookup k solution).getD k) := by
          intro ats
          induction ats with
          | nil => intro acc2 hacc2 k; exact hacc2 k
          | cons a ats ih2 =>
              intro acc2 hacc2 k
              refine ih2 _ ?_ k
              intro k'
              by_cases hk : a = k'
              · subst hk
                right
                rw [dlookup_dinsert_self]
              · rw [dlookup_dinsert_ne _ _ _ hk]
                exact hacc2 k'
        exact inner _ _ hacc
  intro k
  exact main solution [] (fun k => Or.inl rfl) k

/-- Every `Symbol` atom of every stored value has a key in
`buildNewSolution`. -/
theorem mem_dkeys_buildNewSolution (solution : List (SymExpr × SymExpr))
    (kv : SymExpr × SymExpr) (hkv : kv ∈ solution) (a : SymExpr)
    (ha : a ∈ atomsSyms kv.2) :
    a ∈ dkeys (buildNewSolution solution) := by
  have mono : ∀ (ats : List SymExpr) (acc2 : List (SymExpr × SymExpr)) (x : SymExpr),
      x ∈ dkeys acc2 →
      x ∈ dkeys (ats.foldl
        (fun acc2 a => dinsert a ((dlookup a solution).getD a) acc2) acc2) := by
    intro ats
    induction ats with
    | nil => intro acc2 x hx; exact hx
    | cons b ats ih => intro acc2 x hx; exact ih _ x ((mem_dkeys_dinsert _ _ _ _).2 (Or.inr hx))
  have innerIns : ∀ (ats : List SymExpr) (acc2 : List (SymExpr × SymExpr)) (x : SymExpr),
      x ∈ ats →
      x ∈ dkeys (ats.foldl
        (fun acc2 a => dinsert a ((dlookup a solution).getD a) acc2) acc2) := by
    intro ats
    induction ats with
    | nil => intro acc2 x hx; simp at hx
    | cons b ats ih =>
        intro acc2 x hx
        simp only [List.foldl_cons]
        rcases List.mem_cons.1 hx with rfl | hx2
        · exact mono ats _ x ((mem_dkeys_dinsert x x _ _).2 (Or.inl rfl))
        · exact ih _ x hx2
  have monoOuter : ∀ (l : List (SymExpr × SymExpr)) (acc : List (SymExpr × SymExpr)) (x : SymExpr),
      x ∈ dkeys acc →
      x ∈ dkeys (l.foldl
        (fun acc kv => (atomsSyms kv.2).foldl
          (fun acc2 a => dinsert a ((dlookup a solution).getD a) acc2) acc) acc) := by
    intro l
    induction l with
    | nil => intro acc x hx; exact hx
    | cons kv0 rest ih => intro acc x hx; exact ih _ x (mono _ _ x hx)
  have main : ∀ (l : List (SymExpr × SymExpr)) (acc : List (SymExpr × SymExpr)),
      kv ∈ l →
      a ∈ dkeys (l.foldl
        (fun acc kv => (atomsSyms kv.2).foldl
          (fun acc2 a => dinsert a ((dlookup a solution).getD a) acc2) acc) acc) := by
    intro l
    induction l with
    | nil => intro acc h; simp at h
    | cons kv0 rest ih =>
        intro acc hmem
        simp only [List.foldl_cons]
        rcases List.mem_cons.1 hmem with rfl | h2
        · exact monoOuter rest _ a (innerIns (atomsSyms kv.2) acc a ha)
        · exact ih _ h2
  exact main solution [] hkv

/-- Looking up a self-mapped key in the replacement dictionary extracted by
`_set_free_variables_to_zero` yields `0`. -/
theorem dlookup_replaceDict (d : List (SymExpr × SymExpr)) (k : SymExpr)
    (h : dlookup k d = some k) :
    dlookup k ((d.filter fun kv => decide (kv.1 = kv.2)).map fun kv => (kv.1, num 0))
      = some (num 0) := by
  induction d with
  | nil => simp [dlookup] at h
  | cons kv rest ih =>
      by_cases hk : kv.1 = k
      · have hv : kv.2 = k := by simpa [dlookup, hk] using h
        have hfil : decide (kv.1 = kv.2) = true := by
          rw [hk, hv]; simp
        simp only [List.filter_cons, hfil, if_pos rfl, List.map_cons]
        simp [dlookup, hk]
      · have h2 : dlookup k rest = some k := by simpa [dlookup, hk] using h
        by_cases hfil : decide (kv.1 = kv.2) = true
        · simp only [List.filter_cons, hfil, if_pos rfl, List.map_cons]
          simp only [dlookup, hk, if_neg hk]
          exact ih h2
        · simp only [List.filter_cons, Bool.not_eq_true _ ▸ hfil]
          simp only [Bool.false_eq_true, if_false]
          exact ih h2

/-- Substituting the replacement dictionary into a symbol atom that it maps
to `0` gives `0`. -/
theorem subsSymbols_symbol_zero (rd : List (SymExpr × SymExpr)) (k : SymExpr)
    (hsym : isSymbolAtom k = true) (h : dlookup k rd = some (num 0)) :
    subsSymbols rd k = num 0 := by
  cases k with
  | varN => simp [subsSymbols, h]
  | sym s => simp [subsSymbols, h]
  | num q => simp [isSymbolAtom] at hsym
  | scall j => simp [isSymbolAtom] at hsym
  | add l => simp [isSymbolAtom] at hsym
  | mul l => simp [isSymbolAtom] at hsym
  | pow b e => simp [isSymbolAtom] at hsym

end SymExpr

theorem dkeys_map_value {κ ν : Type} (f : ν → ν) (d : List (κ × ν)) :
    dkeys (d.map fun kv => (kv.1, f kv.2)) = dkeys d := by
  simp [dkeys, List.map_map]

namespace SymExpr

/-- C8: whenever a linear-system solve is under-determined, every symbol
left free by the solver (a symbol whose solution is itself) is assigned the
value `0` by `_set_free_variables_to_zero`, and no symbol of the system —
no key and no `Symbol` atom of any solution value — is left unassigned;
symbols that appear only inside solution values (the parametric free
symbols) are likewise assigned `0`. -/
theorem free_variables_zeroed (solution : List (SymExpr × SymExpr))
    (hnodup : (dkeys solution).Nodup)
    (hwf : ∀ kv ∈ solution, isSymbolAtom kv.1 = true) :
    (∀ k, dlookup k solution = some k →
      dlookup k (setFreeVariablesToZero solution) = some (num 0)) ∧
    (∀ a ∈ systemSymbols solution,
      (dlookup a (setFreeVariablesToZero solution)).isSome) ∧
    (∀ a ∈ systemSymbols solution, dlookup a solution = none →
      dlookup a (setFreeVariablesToZero solution) = some (num 0)) := by
  have hfinal : ∀ k, dlookup k (setFreeVariablesToZero solution)
      = (dlookup k (dictUpdate (buildNewSolution solution) solution)).map
          (subsSymbols
            (((dictUpdate (buildNewSolution solution) solution).filter
                fun kv => decide (kv.1 = kv.2)).map fun kv => (kv.1, num 0))) := by
    intro k
    exact dlookup_map_value k _ _
  have hzero : ∀ k, isSymbolAtom k = true →
      dlookup k (dictUpdate (buildNewSolution solution) solution) = some k →
      dlookup k (setFreeVariablesToZero solution) = some (num 0) := by
    intro k hsym hNS
    rw [hfinal k, hNS]
    simp only [Option.map_some']
    rw [subsSymbols_symbol_zero _ _ hsym (dlookup_replaceDict _ k hNS)]
  refine ⟨?_, ?_, ?_⟩
  · intro k hk
    have hsym : isSymbolAtom k = true := hwf (k, k) (dlookup_mem _ _ _ hk)
    exact hzero k hsym (dlookup_dictUpdate_of_dlookup k k solution hnodup hk _)
  · intro a ha
    have hmem : a ∈ dkeys (dictUpdate (buildNewSolution solution) solution) := by
      rcases List.mem_append.1 ha with h1 | h2
      · exact (mem_dkeys_dictUpdate a solution _).2 (Or.inr h1)
      · obtain ⟨kv, hkv, hat⟩ := List.mem_flatMap.1 h2
        exact (mem_dkeys_dictUpdate a solution _).2
          (Or.inl (mem_dkeys_buildNewSolution solution kv hkv a hat))
    rw [hfinal a]
    have : (dlookup a (dictUpdate (buildNewSolution solution) solution)).isSome := by
      rw [dlookup_isSome_iff_mem_dkeys]
      exact hmem
    cases hv : dlookup a (dictUpdate (buildNewSolution solution) solution) with
    | none => rw [hv] at this; simp at this
    | some v => simp
  · intro a ha hnone
    have hnotkey : a ∉ dkeys solution := by
      intro hk
      have := (dlookup_isSome_iff_mem_dkeys a solution).2 hk
      rw [hnone] at this
      simp at this
    have h2 : ∃ kv ∈ solution, a ∈ atomsSyms kv.2 := by
      rcases List.mem_append.1 ha with h1 | h2
      · exact absurd h1 hnotkey
      · exact List.mem_flatMap.1 h2
    obtain ⟨kv, hkv, hat⟩ := h2
    have hsym : isSymbolAtom a = true := atomsSyms_isSymbolAtom kv.2 a hat
    have hbuildmem : a ∈ dkeys (buildNewSolution solution) :=
      mem_dkeys_buildNewSolution solution kv hkv a hat
    have hbuild : dlookup a (buildNewSolution solution) = some a := by
      rcases buildNewSolution_lookup_canonical solution a with h | h
      · have := (dlookup_isSome_iff_mem_dkeys a (buildNewSolution solution)).2 hbuildmem
        rw [h] at this
        simp at this
      · rw [h, hnone]
        rfl
    have hNS : dlookup a (dictUpdate (buildNewSolution solution) solution) = some a := by
      rw [dlookup_dictUpdate_not_mem a solution hnotkey, hbuild]
    exact hzero a hsym hNS

/-- Witness for C8 on the solution `{x ↦ x, b ↦ c + 1}`: the free symbol
`x` and the parametric symbol `c` are assigned `0`, and all system symbols
(`x`, `b`, `c`) are assigned. -/
theorem free_variables_zeroed_witness :
    (dkeys [(sym "x", sym "x"), (sym "b", add [sym "c", num 1])]).Nodup ∧
    dlookup (sym "x") [(sym "x", sym "x"), (sym "b", add [sym "c", num 1])]
      = some (sym "x") ∧
    dlookup (sym "x") (setFreeVariablesToZero
      [(sym "x", sym "x"), (sym "b", add [sym "c", num 1])]) = some (num 0) ∧
    dlookup (sym "c") (setFreeVariablesToZero
      [(sym "x", sym "x"), (sym "b", add [sym "c", num 1])]) = some (num 0) ∧
    (dlookup (sym "b") (setFreeVariablesToZero
      [(sym "x", sym "x"), (sym "b", add [sym "c", num 1])])).isSome := by
  have hnodup : (dkeys [(sym "x", sym "x"), (sym "b", add [sym "c", num 1])]).Nodup := by
    decide
  have hwf : ∀ kv ∈ [(sym "x", sym "x"), (sym "b", add [sym "c", num 1])],
      isSymbolAtom kv.1 = true := by decide
  obtain ⟨h1, h2, h3⟩ := free_variables_zeroed _ hnodup hwf
  refine ⟨hnodup, by decide, h1 (sym "x") (by decide), ?_, ?_⟩
  · exact h3 (sym "c") (by decide) (by decide)
  · exact h2 (sym "b") (by decide)

end SymExpr

namespace SymExpr

theorem termCoeff_sfree (j : ℤ) (t : SymExpr) (hs : hasS t = false) :
    termCoeff j t = none := by
  unfold termCoeff
  split
  · simp [hasS] at hs
  · simp [hasS, hasSList] at hs
  · rfl

theorem getDirectKey_sfree_mul (l : List SymExpr) (hs : hasS (mul l) = false) :
    getDirectKey (mul l) = none := by
  match l with
  | [] => rfl
  | [c] => rfl
  | c :: b :: rest =>
      have hb : hasS b = false := by
        simp [hasS, hasSList] at hs
        simp [hs.2.1]
      cases b with
      | scall j => simp [hasS] at hb
      | num q => rfl
      | varN => rfl
      | sym s => rfl
      | add l2 => rfl
      | mul l2 => rfl
      | pow x y => rfl

theorem dictBuilder_sfree :
    ∀ t : SymExpr, hasS t = false →
      ∀ (d : List (Option ℤ × SymExpr)) (j : ℤ), 1 ≤ j →
        dlookup (some (-j)) (dictBuilder t d) = dlookup (some (-j)) d := by
  refine @indPair
    (fun t => hasS t = false →
      ∀ (d : List (Option ℤ × SymExpr)) (j : ℤ), 1 ≤ j →
        dlookup (some (-j)) (dictBuilder t d) = dlookup (some (-j)) d)
    (fun l => hasSList l = false →
      ∀ (d : List (Option ℤ × SymExpr)) (j : ℤ), 1 ≤ j →
        dlookup (some (-j)) (dictBuilderList l d) = dlookup (some (-j)) d)
    ?_ ?_ ?_ ?_ ?_ ?_ ?_ ?_ ?_
  · intro q _ d j _; rfl
  · intro _ d j _; rfl
  · intro s _ d j _; rfl
  · intro i hs; simp [hasS] at hs
  · intro l ih hs d j hj
    exact ih (by simpa [hasS] using hs) d j hj
  · intro l _ hs d j hj
    have hkey := getDirectKey_sfree_mul l hs
    cases l with
    | nil => rfl
    | cons c rest =>
        show dlookup (some (-j)) (dinsert (getDirectKey (mul (c :: rest))) c d)
          = dlookup (some (-j)) d
        rw [hkey]
        exact dlookup_dinsert_ne none _ c (by simp) d
  · intro b e _ _ _ d j _; rfl
  · intro _ d j _; rfl
  · intro x xs ihx ihxs hs d j hj
    have h1 : hasS x = false := by
      simp [hasSList] at hs
      simp [hs.1]
    have h2 : hasSList xs = false := by
      simp [hasSList] at hs
      simp [hs.2]
    show dlookup (some (-j)) (dictBuilderList xs (dictBuilder x d)) = dlookup (some (-j)) d
    rw [ihxs h2 _ j hj, ihx h1 d j hj]

end SymExpr

namespace SymExpr

theorem termOffsetOf_sfree (t : SymExpr) (hs : hasS t = false) : termOffsetOf t = none := by
  unfold termOffsetOf
  split
  · simp [hasS] at hs
  · simp [hasS, hasSList] at hs
  · rfl

theorem termCoeff_some_offset (j : ℤ) (t : SymExpr) (c : ℚ) (h : termCoeff j t = some c) :
    termOffsetOf t = some j := by
  unfold termCoeff at h
  split at h
  · rename_i i
    by_cases hij : i = j
    · subst hij; rfl
    · simp [hij] at h
  · rename_i c1 i
    by_cases hij : i = j
    · subst hij; rfl
    · simp [hij] at h
  · simp at h

theorem findSome_termCoeff_mem_offsets (j : ℤ) :
    ∀ (ts : List SymExpr) (c : ℚ), ts.findSome? (termCoeff j) = some c →
      j ∈ specOffsets ts := by
  intro ts
  induction ts with
  | nil => intro c h; simp [List.findSome?] at h
  | cons t rest ih =>
      intro c h
      rw [List.findSome?_cons] at h
      unfold specOffsets
      rw [List.filterMap_cons]
      cases ht : termCoeff j t with
      | some c0 =>
          rw [termCoeff_some_offset j t c0 ht]
          exact List.mem_cons_self _ _
      | none =>
          rw [ht] at h
          have hrec := ih c h
          cases hto : termOffsetOf t with
          | none => exact hrec
          | some i => exact List.mem_cons_of_mem _ hrec

/-- A supported term whose coefficient at offset `j` vanishes does not
change the dictionary entry at key `-j`. -/
theorem dictBuilder_step_ne (t : SymExpr) (hwt : charEqSupportedTerm t)
    (j : ℤ) (hj : 1 ≤ j) (hnone : termCoeff j t = none)
    (d : List (Option ℤ × SymExpr)) :
    dlookup (some (-j)) (dictBuilder t d) = dlookup (some (-j)) d := by
  rcases hwt with ⟨i, hi1, hshape⟩ | hsfree
  · have hij : i ≠ j := by
      intro hij
      subst hij
      rcases hshape with rfl | ⟨c, rfl⟩
      · simp [termCoeff] at hnone
      · simp [termCoeff] at hnone
    have hne : (some (-i) : Option ℤ) ≠ some (-j) := by simp; omega
    rcases hshape with rfl | ⟨c, rfl⟩
    · show dlookup (some (-j)) (dinsert (getDirectKey (scall i)) (num 1) d) = _
      rw [show getDirectKey (scall i) = some (-i) by simp [getDirectKey]; omega]
      exact dlookup_dinsert_ne _ _ _ hne d
    · show dlookup (some (-j)) (dinsert (getDirectKey (mul [num c, scall i])) (num c) d) = _
      rw [show getDirectKey (mul [num c, scall i]) = some (-i) by simp [getDirectKey]; omega]
      exact dlookup_dinsert_ne _ _ _ hne d
  · exact dictBuilder_sfree t hsfree d j hj

/-- A supported term with coefficient `c` at offset `j` writes `c` at key
`-j`. -/
theorem dictBuilder_step_eq (t : SymExpr) (hwt : charEqSupportedTerm t)
    (j : ℤ) (c : ℚ) (hsome : termCoeff j t = some c)
    (d : List (Option ℤ × SymExpr)) :
    dictBuilder t d = dinsert (some (-j)) (num c) d := by
  rcases hwt with ⟨i, hi1, hshape⟩ | hsfree
  · have hij : i = j := by
      have := termCoeff_some_offset j t c hsome
      rcases hshape with rfl | ⟨c0, rfl⟩
      · simpa [termOffsetOf] using this
      · simpa [termOffsetOf] using this
    subst hij
    rcases hshape with rfl | ⟨c0, rfl⟩
    · have hc : c = 1 := by
        simp [termCoeff] at hsome
        exact hsome.symm
      subst hc
      show dinsert (getDirectKey (scall i)) (num 1) d = dinsert (some (-i)) (num 1) d
      rw [show getDirectKey (scall i) = some (-i) by simp [getDirectKey]; omega]
    · have hc : c0 = c := by
        simp [termCoeff] at hsome
        exact hsome
      subst hc
      show dinsert (getDirectKey (mul [num c0, scall i])) (num c0) d
        = dinsert (some (-i)) (num c0) d
      rw [show getDirectKey (mul [num c0, scall i]) = some (-i) by
        simp [getDirectKey]; omega]
  · rw [termCoeff_sfree j t hsfree] at hsome
    cases hsome

theorem dictBuilderList_lookup_none :
    ∀ (ts : List SymExpr), (∀ t ∈ ts, charEqSupportedTerm t) →
      ∀ (j : ℤ), 1 ≤ j → ts.findSome? (termCoeff j) = none →
      ∀ d, dlookup (some (-j)) (dictBuilderList ts d) = dlookup (some (-j)) d := by
  intro ts
  induction ts with
  | nil => intro _ j hj _ d; rfl
  | cons t rest ih =>
      intro hwf j hj h d
      rw [List.findSome?_cons] at h
      cases ht : termCoeff j t with
      | some c0 => rw [ht] at h; cases h
      | none =>
          rw [ht] at h
          show dlookup (some (-j)) (dictBuilderList rest (dictBuilder t d)) = _
          rw [ih (fun u hu => hwf u (List.mem_cons_of_mem _ hu)) j hj h _]
          exact dictBuilder_step_ne t (hwf t (List.mem_cons_self _ _)) j hj ht d

theorem dictBuilderList_lookup_some :
    ∀ (ts : List SymExpr), (∀ t ∈ ts, charEqSupportedTerm t) →
      (specOffsets ts).Nodup →
      ∀ (j : ℤ) (c : ℚ), 1 ≤ j → ts.findSome? (termCoeff j) = some c →
      ∀ d, dlookup (some (-j)) (dictBuilderList ts d) = some (num c) := by
  intro ts
  induction ts with
  | nil => intro _ _ j c hj h; simp [List.findSome?] at h
  | cons t rest ih =>
      intro hwf hnodup j c hj h d
      have hwfr : ∀ u ∈ rest, charEqSupportedTerm u :=
        fun u hu => hwf u (List.mem_cons_of_mem _ hu)
      have hnodupr : (specOffsets rest).Nodup := by
        unfold specOffsets at hnodup ⊢
        rw [List.filterMap_cons] at hnodup
        cases hto : termOffsetOf t with
        | none => rw [hto] at hnodup; exact hnodup
        | some i => rw [hto] at hnodup; exact hnodup.of_cons
      rw [List.findSome?_cons] at h
      cases ht : termCoeff j t with
      | some c0 =>
          rw [ht] at h
          have hc : c0 = c := by simpa using h
          subst hc
          have hofft : termOffsetOf t = some j := termCoeff_some_offset j t c0 ht
          have hjnot : j ∉ specOffsets rest := by
            unfold specOffsets at hnodup
            rw [List.filterMap_cons, hofft] at hnodup
            exact (List.nodup_cons.1 hnodup).1
          have hrestnone : rest.findSome? (termCoeff j) = none := by
            cases hr : rest.findSome? (termCoeff j) with
            | none => rfl
            | some c1 =>
                exact absurd (findSome_termCoeff_mem_offsets j rest c1 hr) hjnot
          show dlookup (some (-j)) (dictBuilderList rest (dictBuilder t d)) = _
          rw [dictBuilderList_lookup_none rest hwfr j hj hrestnone _]
          rw [dictBuilder_step_eq t (hwf t (List.mem_cons_self _ _)) j c0 ht d]
          exact dlookup_dinsert_self _ _ d
      | none =>
          rw [ht] at h
          show dlookup (some (-j)) (dictBuilderList rest (dictBuilder t d)) = _
          exact ih hwfr hnodupr j c hj h _

end SymExpr

namespace SymExpr

/-- Rational powers at a natural-number exponent agree with the monoid
power. -/
theorem qpow_natCast (b : ℚ) (m : ℕ) : qpow b ((m : ℕ) : ℚ) = b ^ m := by
  unfold qpow
  rw [if_pos]
  · norm_num
  · constructor
    · exact Rat.den_natCast m
    · rw [Rat.num_natCast]; exact Int.ofNat_nonneg m

/-- Evaluation of the subtraction fold of `_getCharacteristicEquation`: the
fold over `range m` subtracts, term by term, the evaluation of the `i`-th
stored coefficient times `r ^ (k - (i + 1))`. -/
theorem evalQ_charEq_foldl (σ : String → ℚ) (nv : ℕ) (k : ℕ) (e : ℕ → SymExpr)
    (init : SymExpr) :
    ∀ m : ℕ,
    evalQ σ nv ((List.range m).foldl
        (fun acc i => add [acc, mul [num (-1), e i,
          pow (sym "r") (num ((k - (i + 1) : ℕ) : ℚ))]]) init)
      = evalQ σ nv init
        - ∑ i in Finset.range m, evalQ σ nv (e i) * σ "r" ^ (k - (i + 1)) := by
  intro m
  induction m with
  | zero => simp
  | succ m ih =>
      rw [List.range_succ, List.foldl_append, List.foldl_cons, List.foldl_nil,
        Finset.sum_range_succ]
      show evalQ σ nv (add [_, mul [num (-1), e m,
        pow (sym "r") (num ((k - (m + 1) : ℕ) : ℚ))]]) = _
      simp only [evalQ, sumEvalQ, prodEvalQ, qpow_natCast]
      rw [ih]
      ring

/-- The evaluation of a dictionary entry of the coefficient dictionary (with
default `0`) is the spec-side coefficient. -/
theorem evalQ_dict_entry (ts : List SymExpr)
    (hwf : ∀ t ∈ ts, charEqSupportedTerm t)
    (hnodup : (specOffsets ts).Nodup)
    (σ : String → ℚ) (nv : ℕ) (j : ℤ) (hj : 1 ≤ j) :
    evalQ σ nv ((dlookup (some (-j)) (dictBuilderList ts [])).getD (num 0))
      = specCoeff ts j := by
  cases h : ts.findSome? (termCoeff j) with
  | none =>
      rw [dictBuilderList_lookup_none ts hwf j hj h []]
      simp [dlookup, specCoeff, h, evalQ]
  | some c =>
      rw [dictBuilderList_lookup_some ts hwf hnodup j c hj h []]
      simp [specCoeff, h, evalQ]

/-- Claim C5: for a stored recurrence that is a sum of supported homogeneous
terms (each a rational multiple of some `s(n - j)`, `j ≥ 1`, with distinct
offsets, plus arbitrary `s`-free terms), the characteristic equation built
by `_getCharacteristicEquation` evaluates, at any assignment of `r`, to
`r ^ degree − Σ_{j=1..degree} c_j · r ^ (degree − j)`, where `c_j` is the
coefficient of `s(n - j)` and any coefficient absent from the dictionary is
treated as `0`. -/
theorem characteristic_equation_formula (ts : List SymExpr) (k : ℕ)
    (hwf : ∀ t ∈ ts, charEqSupportedTerm t)
    (hnodup : (specOffsets ts).Nodup)
    (σ : String → ℚ) (nv : ℕ) :
    evalQ σ nv (getCharacteristicEquation (add ts) k)
      = σ "r" ^ k
        - ∑ j in Finset.range k, specCoeff ts ((j : ℤ) + 1) * σ "r" ^ (k - (j + 1)) := by
  show evalQ σ nv ((List.range k).foldl
      (fun acc i => add [acc, mul [num (-1),
        (dlookup (some (-(i + 1 : ℕ) : ℤ)) (dictBuilder (add ts) [])).getD (num 0),
        pow (sym "r") (num ((k - (i + 1) : ℕ) : ℚ))]])
      (pow (sym "r") (num (k : ℚ)))) = _
  rw [evalQ_charEq_foldl σ nv k
    (fun i => (dlookup (some (-(i + 1 : ℕ) : ℤ)) (dictBuilder (add ts) [])).getD (num 0))
    (pow (sym "r") (num (k : ℚ))) k]
  have hinit : evalQ σ nv (pow (sym "r") (num (k : ℚ))) = σ "r" ^ k := by
    simp only [evalQ, qpow_natCast]
  rw [hinit]
  congr 1
  refine Finset.sum_congr rfl ?_
  intro i _
  have hkey : (-(i + 1 : ℕ) : ℤ) = -((i : ℤ) + 1) := by push_cast; ring
  have hj1 : (1 : ℤ) ≤ (i : ℤ) + 1 := by omega
  have := evalQ_dict_entry ts hwf hnodup σ nv ((i : ℤ) + 1) hj1
  show evalQ σ nv ((dlookup (some (-(i + 1 : ℕ) : ℤ)) (dictBuilderList ts [])).getD (num 0))
      * σ "r" ^ (k - (i + 1)) = _
  rw [hkey, this]

/-- Concrete instance of C5: the recurrence `s(n) = 4 s(n-1) - 4 s(n-2)` has
characteristic equation `r² - 4 r + 4`, which evaluates to `9` at `r = 5`. -/
theorem characteristic_equation_formula_witness :
    (∀ t ∈ ([mul [num 4, scall 1], mul [num (-4), scall 2]] : List SymExpr),
      charEqSupportedTerm t) ∧
    (specOffsets [mul [num 4, scall 1], mul [num (-4), scall 2]]).Nodup ∧
    evalQ (fun _ => 5) 0
      (getCharacteristicEquation (add [mul [num 4, scall 1], mul [num (-4), scall 2]]) 2)
      = 9 := by
  have hwf : ∀ t ∈ ([mul [num 4, scall 1], mul [num (-4), scall 2]] : List SymExpr),
      charEqSupportedTerm t := by
    intro t ht
    rcases List.mem_cons.1 ht with rfl | ht
    · exact Or.inl ⟨1, by omega, Or.inr ⟨4, rfl⟩⟩
    rcases List.mem_cons.1 ht with rfl | ht
    · exact Or.inl ⟨2, by omega, Or.inr ⟨-4, rfl⟩⟩
    · cases ht
  have hnodup : (specOffsets [mul [num 4, scall 1], mul [num (-4), scall 2]]).Nodup := by
    decide
  refine ⟨hwf, hnodup, ?_⟩
  rw [characteristic_equation_formula
    [mul [num 4, scall 1], mul [num (-4), scall 2]] 2 hwf hnodup (fun _ => 5) 0]
  rw [Finset.sum_range_succ, Finset.sum_range_succ, Finset.sum_range_zero]
  norm_num [specCoeff, termCoeff, List.findSome?_cons]

end SymExpr

section PyDictMore

variable {κ : Type} {ν : Type} [DecidableEq κ]

/-- Inserting writes in place at an existing key and appends a fresh key. -/
theorem dkeys_dinsert (k : κ) (v : ν) :
    ∀ d : List (κ × ν),
      dkeys (dinsert k v d) = if k ∈ dkeys d then dkeys d else dkeys d ++ [k] := by
  intro d
  induction d with
  | nil => simp [dinsert, dkeys]
  | cons kv rest ih =>
      by_cases h : kv.1 = k
      · subst h
        simp [dinsert, dkeys]
      · have h2 : ¬ k = kv.1 := fun hk => h hk.symm
        simp only [dinsert, if_neg h, dkeys, List.map_cons] at ih ⊢
        rw [ih]
        by_cases hm : k ∈ List.map Prod.fst rest
        · simp [hm, h2]
        · simp [hm, h2]

/-- Membership in an insertion result, when the keys are distinct: either an
untouched old entry at a different key, or the inserted pair. -/
theorem mem_dinsert_of_nodup (k : κ) (v : ν) :
    ∀ d : List (κ × ν), (dkeys d).Nodup → ∀ kv' : κ × ν,
      (kv' ∈ dinsert k v d ↔ (kv' ∈ d ∧ kv'.1 ≠ k) ∨ kv' = (k, v)) := by
  intro d
  induction d with
  | nil =>
      intro _ kv'
      constructor
      · intro h
        simp [dinsert] at h
        exact Or.inr h
      · intro h
        rcases h with ⟨h, _⟩ | rfl
        · cases h
        · simp [dinsert]
  | cons hd rest ih =>
      intro hnd kv'
      have hndr : (dkeys rest).Nodup := by
        simp only [dkeys, List.map_cons, List.nodup_cons] at hnd
        exact hnd.2
      have hhd : hd.1 ∉ dkeys rest := by
        simp only [dkeys, List.map_cons, List.nodup_cons] at hnd
        exact hnd.1
      by_cases h : hd.1 = k
      · subst h
        simp only [dinsert, if_pos rfl]
        constructor
        · intro hm
          rcases List.mem_cons.1 hm with rfl | hm
          · exact Or.inr rfl
          · refine Or.inl ⟨List.mem_cons_of_mem _ hm, ?_⟩
            intro hk
            exact hhd (hk ▸ (List.mem_map_of_mem Prod.fst hm))
        · intro hca
          rcases hca with ⟨hm, hne⟩ | rfl
          · rcases List.mem_cons.1 hm with rfl | hm
            · exact absurd rfl hne
            · exact List.mem_cons_of_mem _ hm
          · exact List.mem_cons_self _ _
      · simp only [dinsert, if_neg h]
        constructor
        · intro hm
          rcases List.mem_cons.1 hm with rfl | hm
          · exact Or.inl ⟨List.mem_cons_self _ _, h⟩
          · rcases (ih hndr kv').1 hm with ⟨hmm, hne⟩ | rfl
            · exact Or.inl ⟨List.mem_cons_of_mem _ hmm, hne⟩
            · exact Or.inr rfl
        · intro hca
          rcases hca with ⟨hm, hne⟩ | rfl
          · rcases List.mem_cons.1 hm with rfl | hm
            · exact List.mem_cons_self _ _
            · exact List.mem_cons_of_mem _ ((ih hndr kv').2 (Or.inl ⟨hm, hne⟩))
          · exact List.mem_cons_of_mem _ ((ih hndr (k, v)).2 (Or.inr rfl))

end PyDictMore

/-- The accumulator of a running maximum never decreases. -/
theorem foldl_max_init_le {α : Type} (f : α → ℕ) :
    ∀ (l : List α) (init : ℕ), init ≤ l.foldl (fun m x => Nat.max m (f x)) init := by
  intro l
  induction l with
  | nil => intro init; exact Nat.le_refl _
  | cons x xs ih =>
      intro init
      exact Nat.le_trans (Nat.le_max_left init (f x)) (ih _)

/-- Every listed value bounds a running maximum over the list. -/
theorem le_foldl_max_of_mem {α : Type} (f : α → ℕ) :
    ∀ (l : List α) (a : α), a ∈ l → ∀ init : ℕ,
      f a ≤ l.foldl (fun m x => Nat.max m (f x)) init := by
  intro l
  induction l with
  | nil => intro a ha; cases ha
  | cons x xs ih =>
      intro a ha init
      rcases List.mem_cons.1 ha with rfl | ha
      · exact Nat.le_trans (Nat.le_max_right init (f a)) (foldl_max_init_le f xs _)
      · exact ih a ha _

/-- Elements of a first-occurrence deduplication are elements of the list. -/
theorem mem_firstOccur_foldl {α : Type} [DecidableEq α] :
    ∀ (l acc : List α) (a : α),
      (a ∈ l.foldl (fun ac b => if b ∈ ac then ac else ac ++ [b]) acc ↔ a ∈ acc ∨ a ∈ l) := by
  intro l
  induction l with
  | nil => intro acc a; simp
  | cons x xs ih =>
      intro acc a
      rw [List.foldl_cons, ih]
      by_cases hx : x ∈ acc
      · rw [if_pos hx]
        constructor
        · intro h; rcases h with h | h
          · exact Or.inl h
          · exact Or.inr (List.mem_cons_of_mem _ h)
        · intro h
          rcases h with h | h
          · exact Or.inl h
          · rcases List.mem_cons.1 h with rfl | h
            · exact Or.inl hx
            · exact Or.inr h
      · rw [if_neg hx]
        constructor
        · intro h; rcases h with h | h
          · rcases List.mem_append.1 h with h | h
            · exact Or.inl h
            · exact Or.inr (List.mem_cons.2 (Or.inl (List.mem_singleton.1 h)))
          · exact Or.inr (List.mem_cons_of_mem _ h)
        · intro h
          rcases h with h | h
          · exact Or.inl (List.mem_append.2 (Or.inl h))
          · rcases List.mem_cons.1 h with rfl | h
            · exact Or.inl (List.mem_append.2 (Or.inr (List.mem_singleton.2 rfl)))
            · exact Or.inr h

/-- Membership in a first-occurrence deduplication. -/
theorem mem_firstOccur {α : Type} [DecidableEq α] (l : List α) (a : α) :
    a ∈ firstOccur l ↔ a ∈ l := by
  unfold firstOccur
  rw [mem_firstOccur_foldl]
  simp

/-- First-occurrence deduplication of a list extended by one element. -/
theorem firstOccur_append {α : Type} [DecidableEq α] (l : List α) (a : α) :
    firstOccur (l ++ [a])
      = if a ∈ firstOccur l then firstOccur l else firstOccur l ++ [a] := by
  unfold firstOccur
  rw [List.foldl_append, List.foldl_cons, List.foldl_nil]

namespace SymExpr

/-- The degree bucket key produced for a natural-number degree literal reads
back as that degree. -/
theorem natDegreeOf_natCast (d : ℕ) : natDegreeOf (num (d : ℚ)) = d := by
  simp [natDegreeOf]

/-- A key already present bounds the maximum over the degree keys. -/
theorem le_maxPolyKey_of_mem (k : SymExpr) (polys : List (SymExpr × SymExpr))
    (h : k ∈ dkeys polys) : natDegreeOf k ≤ maxPolyKey polys :=
  le_foldl_max_of_mem natDegreeOf (dkeys polys) k h 0

/-- Inserting a degree entry bumps the observed maximum degree. -/
theorem maxPolyKey_dinsert (k : SymExpr) (v : SymExpr)
    (polys : List (SymExpr × SymExpr)) :
    maxPolyKey (dinsert k v polys) = Nat.max (maxPolyKey polys) (natDegreeOf k) := by
  unfold maxPolyKey
  rw [dkeys_dinsert]
  by_cases hm : k ∈ dkeys polys
  · rw [if_pos hm]
    exact (Nat.max_eq_left (le_maxPolyKey_of_mem k polys hm)).symm
  · rw [if_neg hm, List.foldl_append, List.foldl_cons, List.foldl_nil]

/-- The classifier decomposition of a supported forcing term: the
exponential base and the polynomial degree read off the shape. -/
theorem classifierState_of_shape (t : SymExpr) (d : ℕ) (b : ℚ)
    (h : ForcingShape t d b) :
    (theorem6ClassifierState t).power = num b
      ∧ (theorem6ClassifierState t).poly = num (d : ℚ) := by
  cases h with
  | const c =>
      simp [theorem6ClassifierState, classifierArgs, theorem6ClassifierStep, hasN]
  | nlin =>
      simp [theorem6ClassifierState, classifierArgs, theorem6ClassifierStep, hasN,
        isSymbolAtom]
  | npow d =>
      simp [theorem6ClassifierState, classifierArgs, theorem6ClassifierStep, hasN,
        isSymbolAtom]
  | expo b =>
      simp [theorem6ClassifierState, classifierArgs, theorem6ClassifierStep, hasN,
        isSymbolAtom]
  | cn c =>
      simp [theorem6ClassifierState, classifierArgs, theorem6ClassifierStep, hasN,
        hasNList, isSymbolAtom]
  | cnpow c d =>
      simp [theorem6ClassifierState, classifierArgs, theorem6ClassifierStep, hasN,
        hasNList, isSymbolAtom]
  | cexpo c b =>
      simp [theorem6ClassifierState, classifierArgs, theorem6ClassifierStep, hasN,
        hasNList, isSymbolAtom]
  | nexpo b =>
      simp [theorem6ClassifierState, classifierArgs, theorem6ClassifierStep, hasN,
        hasNList, isSymbolAtom]
  | npowexpo d b =>
      simp [theorem6ClassifierState, classifierArgs, theorem6ClassifierStep, hasN,
        hasNList, isSymbolAtom]
  | cnexpo c b =>
      simp [theorem6ClassifierState, classifierArgs, theorem6ClassifierStep, hasN,
        hasNList, isSymbolAtom]
  | cnpowexpo c d b =>
      simp [theorem6ClassifierState, classifierArgs, theorem6ClassifierStep, hasN,
        hasNList, isSymbolAtom]

/-- The spec-side maximum degree of a group after one more classified term:
bumped for the term's own base, untouched for the others. -/
theorem specMaxDeg_append (pref : List (ℕ × ℚ)) (db : ℕ × ℚ) (k : SymExpr) :
    specMaxDeg (pref ++ [db]) k
      = if num db.2 = k then Nat.max (specMaxDeg pref k) db.1
        else specMaxDeg pref k := by
  unfold specMaxDeg
  rw [List.filter_append]
  by_cases h : num db.2 = k
  · rw [if_pos h]
    have hf : List.filter (fun x => decide (num x.2 = k)) [db] = [db] := by
      simp [List.filter, h]
    rw [hf, List.map_append, List.foldl_append]
    rfl
  · rw [if_neg h]
    have hf : List.filter (fun x => decide (num x.2 = k)) [db] = [] := by
      simp [List.filter, h]
    rw [hf, List.append_nil]

/-- A base absent from a classified prefix has observed maximum degree `0`. -/
theorem specMaxDeg_of_not_mem (pref : List (ℕ × ℚ)) (k : SymExpr)
    (h : k ∉ pref.map fun db => num db.2) : specMaxDeg pref k = 0 := by
  unfold specMaxDeg
  have hf : List.filter (fun x => decide (num x.2 = k)) pref = [] := by
    rw [List.filter_eq_nil]
    intro a ha
    simp only [decide_eq_true_eq]
    intro hk
    exact h (hk ▸ List.mem_map_of_mem (fun db => num db.2) ha)
  rw [hf]
  rfl

end SymExpr

namespace SymExpr

/-- The bucket fold of `_theorem6SolutionBuilder` over classified forcing
terms: the bucket keys are the distinct bases in first-occurrence order, and
each bucket's observed maximum degree is the group's maximum polynomial
degree. -/
theorem buckets_fold_spec :
    ∀ (ts : List SymExpr) (cls : List (ℕ × ℚ)),
      List.Forall₂ (fun t db => ForcingShape t db.1 db.2) ts cls →
      ∀ (B : List (SymExpr × List (SymExpr × SymExpr))) (pref : List (ℕ × ℚ)),
        dkeys B = specBasesE pref →
        (∀ kv ∈ B, maxPolyKey kv.2 = specMaxDeg pref kv.1) →
        (dkeys B).Nodup →
        dkeys (ts.foldl (fun acc t => theorem6Classifier t acc) B)
            = specBasesE (pref ++ cls)
          ∧ ∀ kv ∈ ts.foldl (fun acc t => theorem6Classifier t acc) B,
              maxPolyKey kv.2 = specMaxDeg (pref ++ cls) kv.1 := by
  intro ts cls hshape
  induction hshape with
  | nil =>
      intro B pref hkeys hmax _
      rw [List.append_nil]
      exact ⟨hkeys, hmax⟩
  | cons hab htail ih =>
      rename_i t db ts cls
      intro B pref hkeys hmax hnd
      obtain ⟨hpw, hpl⟩ := classifierState_of_shape t db.1 db.2 hab
      have hB1 : theorem6Classifier t B
          = dinsert (num db.2)
              (dinsert (num (db.1 : ℚ)) (theorem6ClassifierState t).constant
                ((dlookup (num db.2) B).getD []))
              B := by
        simp only [theorem6Classifier, bucketsAdd]
        rw [hpw, hpl]
      have hkeys1 : dkeys (theorem6Classifier t B) = specBasesE (pref ++ [db]) := by
        rw [hB1, dkeys_dinsert, hkeys]
        unfold specBasesE
        rw [List.map_append]
        rw [show List.map (fun x => num x.2) [db] = [num db.2] from rfl]
        rw [firstOccur_append]
      have hmax1 : ∀ kv ∈ theorem6Classifier t B,
          maxPolyKey kv.2 = specMaxDeg (pref ++ [db]) kv.1 := by
        intro kv hm
        rw [hB1] at hm
        rcases (mem_dinsert_of_nodup _ _ B hnd kv).1 hm with ⟨hmm, hne⟩ | rfl
        · rw [specMaxDeg_append, if_neg (fun h => hne h.symm)]
          exact hmax kv hmm
        · dsimp only
          rw [specMaxDeg_append, if_pos rfl]
          rw [maxPolyKey_dinsert, natDegreeOf_natCast]
          congr 1
          by_cases hmem : num db.2 ∈ dkeys B
          · obtain ⟨vold, hvold⟩ :=
              Option.isSome_iff_exists.1 ((dlookup_isSome_iff_mem_dkeys _ B).2 hmem)
            rw [hvold]
            exact hmax (num db.2, vold) (dlookup_mem _ _ B hvold)
          · have hlk : dlookup (num db.2) B = none := by
              cases hl : dlookup (num db.2) B with
              | none => rfl
              | some v =>
                  exact absurd ((dlookup_isSome_iff_mem_dkeys _ B).1 (by rw [hl]; rfl)) hmem
            rw [hlk]
            have hz : specMaxDeg pref (num db.2) = 0 := by
              apply specMaxDeg_of_not_mem
              intro hc
              apply hmem
              rw [hkeys]
              exact (mem_firstOccur _ _).2 hc
            rw [hz]
            rfl
      have hnd1 : (dkeys (theorem6Classifier t B)).Nodup := by
        rw [hB1, dkeys_dinsert]
        by_cases hm : num db.2 ∈ dkeys B
        · rw [if_pos hm]; exact hnd
        · rw [if_neg hm, List.nodup_append]
          refine ⟨hnd, List.nodup_singleton _, ?_⟩
          intro x hx hx2
          rw [List.mem_singleton] at hx2
          subst hx2
          exact hm hx
      have hrec := ih (theorem6Classifier t B) (pref ++ [db]) hkeys1 hmax1 hnd1
      rw [List.append_assoc, List.singleton_append] at hrec
      rw [List.foldl_cons]
      exact hrec

end SymExpr

namespace SymExpr

/-- The per-bucket template emission, entry by entry: each bucket
contributes `n^mu * (q-polynomial of the group's maximum degree) * base^n`. -/
theorem enum_map_buckets (rr : List (SymExpr × ℕ)) (cls : List (ℕ × ℚ)) :
    ∀ (L : List (SymExpr × List (SymExpr × SymExpr))) (i : ℕ),
      (∀ kv ∈ L, maxPolyKey kv.2 = specMaxDeg cls kv.1) →
      (L.enumFrom i).map (fun ib =>
          mul [pow varN (num (((dlookup ib.2.1 rr).getD 0 : ℕ) : ℚ)),
            add (qPolyTerms ib.1 (maxPolyKey ib.2.2)),
            pow ib.2.1 varN])
        = ((L.map Prod.fst).enumFrom i).map (fun ip =>
            mul [pow varN (num ((specMultiplicityE rr ip.2 : ℕ) : ℚ)),
              add (qPolyTerms ip.1 (specMaxDeg cls ip.2)),
              pow ip.2 varN]) := by
  intro L
  induction L with
  | nil => intro i _; rfl
  | cons kv rest ih =>
      intro i h
      rw [List.map_cons, List.enumFrom_cons, List.enumFrom_cons, List.map_cons,
        List.map_cons]
      congr 1
      · dsimp only
        rw [h kv (List.mem_cons_self _ _)]
        rfl
      · exact ih (i + 1) (fun kv' h' => h kv' (List.mem_cons_of_mem _ h'))

/-- Claim C3: for a non-homogeneous recurrence whose expanded forcing terms
each have a supported shape with polynomial degree `d` and exponential base
`b`, `_theorem6SolutionBuilder` groups the terms by base and emits, for the
`i`-th distinct base `b` (in first-occurrence order),
`n^mu(b) * (q_i_{d_b} n^{d_b} + ... + q_i_0) * b^n`, where `d_b` is the
group's maximum polynomial degree and `mu(b)` is the multiplicity of `b`
among the characteristic roots, `0` when `b` is not a root; in particular a
forcing base that is a characteristic root receives the `n^mu` resonance
factor. -/
theorem theorem6_template (rr : List (SymExpr × ℕ)) (ts : List SymExpr)
    (cls : List (ℕ × ℚ))
    (hshape : List.Forall₂ (fun t db => ForcingShape t db.1 db.2) ts cls) :
    theorem6SolutionBuilder rr (add ts)
      = add (((specBasesE cls).enum).map fun ip =>
          mul [pow varN (num ((specMultiplicityE rr ip.2 : ℕ) : ℚ)),
            add (qPolyTerms ip.1 (specMaxDeg cls ip.2)),
            pow ip.2 varN]) := by
  obtain ⟨hkeys, hmax⟩ :=
    buckets_fold_spec ts cls hshape [] [] rfl (by intro kv h; cases h)
      (by simp [dkeys])
  rw [List.nil_append] at hkeys hmax
  show add (((ts.foldl (fun B t => theorem6Classifier t B) []).enum).map fun ib =>
      mul [pow varN (num (((dlookup ib.2.1 rr).getD 0 : ℕ) : ℚ)),
        add (qPolyTerms ib.1 (maxPolyKey ib.2.2)),
        pow ib.2.1 varN]) = _
  rw [← hkeys]
  congr 1
  exact enum_map_buckets rr cls (ts.foldl (fun B t => theorem6Classifier t B) []) 0 hmax

/-- Concrete instance of C3 (the resonant forcing `2^n + 1` against a
characteristic root `2` of multiplicity `1`): the template is
`n^1 * q_0_0 * 2^n + n^0 * q_1_0 * 1^n`, with the resonance factor `n^1`
present on the first group. -/
theorem theorem6_template_witness :
    List.Forall₂ (fun t db => ForcingShape t db.1 db.2)
      [pow (num 2) varN, num 1] [((0 : ℕ), (2 : ℚ)), (0, 1)] ∧
    theorem6SolutionBuilder [(num 2, 1)] (add [pow (num 2) varN, num 1])
      = add [mul [pow varN (num 1),
                add [mul [sym "q_0_0", pow varN (num 0)]],
                pow (num 2) varN],
             mul [pow varN (num 0),
                add [mul [sym "q_1_0", pow varN (num 0)]],
                pow (num 1) varN]] := by
  have hshape : List.Forall₂ (fun t db => ForcingShape t db.1 db.2)
      [pow (num 2) varN, num 1] [((0 : ℕ), (2 : ℚ)), (0, 1)] := by
    refine List.Forall₂.cons ?_ (List.Forall₂.cons ?_ List.Forall₂.nil)
    · exact ForcingShape.expo 2
    · exact ForcingShape.const 1
  refine ⟨hshape, ?_⟩
  rw [theorem6_template [(num 2, 1)] _ _ hshape]
  decide

end SymExpr
